import Mathlib

/-!
Shallow embedding of the `grit` version-control core (a minimal git clone in
Rust) together with proofs about its object store, index, iterator, status and
diff algorithms.

Bytes are modelled as `Nat` (each `< 256` where it matters), byte strings as
`List Nat`, and fallible Rust code (`io::Result`, `anyhow::Result`, `assert!`,
`unreachable!`) as `Option`/`Except`-style results.  Machine integers use `Nat`
or `Int` with explicit `% 2 ^ 32` where the Rust code relies on wrapping.
-/

namespace Grit

/-! ### SHA-1 (the `sha1` crate used by `object::Id::hash` and the index trailer)

A byte-level implementation of SHA-1 (FIPS 180-4), executable by `decide`. -/

/-- Rotate the 32-bit word `n` left by `k` bits. -/
def rotl (k n : Nat) : Nat :=
  (((n <<< k) % 2 ^ 32) ||| (n >>> (32 - k)))

/-- Bitwise complement of a 32-bit word. -/
def not32 (n : Nat) : Nat := n ^^^ 0xFFFFFFFF

/-- Big-endian 32-bit word from four bytes. -/
def word32 (b0 b1 b2 b3 : Nat) : Nat :=
  b0 * 2 ^ 24 + b1 * 2 ^ 16 + b2 * 2 ^ 8 + b3

/-- Big-endian byte decomposition of a 32-bit word. -/
def word32Bytes (w : Nat) : List Nat :=
  [w / 2 ^ 24 % 256, w / 2 ^ 16 % 256, w / 2 ^ 8 % 256, w % 256]

/-- Big-endian byte decomposition of a 64-bit word. -/
def word64Bytes (w : Nat) : List Nat :=
  word32Bytes (w / 2 ^ 32 % 2 ^ 32) ++ word32Bytes (w % 2 ^ 32)

/-- SHA-1 padding: append `0x80`, zero bytes, and the 64-bit big-endian bit
length, so that the total length is a multiple of 64 bytes. -/
def sha1Pad (msg : List Nat) : List Nat :=
  msg ++ [0x80] ++ List.replicate ((119 - msg.length % 64) % 64) 0
    ++ word64Bytes (msg.length * 8)

/-- Group the first 16 big-endian words of a 64-byte block. -/
def blockWords : List Nat → List Nat
  | b0 :: b1 :: b2 :: b3 :: rest => word32 b0 b1 b2 b3 :: blockWords rest
  | _ => []

/-- Message-schedule extension: repeatedly append
`rotl1 (w[i-3] xor w[i-8] xor w[i-14] xor w[i-16])`. -/
def sha1Extend : Nat → List Nat → List Nat
  | 0, w => w
  | n + 1, w =>
      sha1Extend n (w ++ [rotl 1 ((w.getD (w.length - 3) 0 ^^^ w.getD (w.length - 8) 0)
        ^^^ (w.getD (w.length - 14) 0 ^^^ w.getD (w.length - 16) 0))])

/-- Round function `f` of SHA-1, selected by the round index. -/
def sha1F (i b c d : Nat) : Nat :=
  if i < 20 then (b &&& c) ||| (not32 b &&& d)
  else if i < 40 then (b ^^^ c) ^^^ d
  else if i < 60 then ((b &&& c) ||| (b &&& d)) ||| (c &&& d)
  else (b ^^^ c) ^^^ d

/-- Round constant `k` of SHA-1, selected by the round index. -/
def sha1K (i : Nat) : Nat :=
  if i < 20 then 0x5A827999
  else if i < 40 then 0x6ED9EBA1
  else if i < 60 then 0x8F1BBCDC
  else 0xCA62C1D6

/-- The five-word SHA-1 state. -/
structure Sha1State where
  a : Nat
  b : Nat
  c : Nat
  d : Nat
  e : Nat
deriving DecidableEq, Repr

/-- One SHA-1 round at index `i` with schedule word `w`. -/
def sha1Round (i w : Nat) (s : Sha1State) : Sha1State :=
  { a := (rotl 5 s.a + sha1F i s.b s.c s.d + s.e + sha1K i + w) % 2 ^ 32
    b := s.a
    c := rotl 30 s.b
    d := s.c
    e := s.d }

/-- Run the 80 rounds of one block, threading the round index. -/
def sha1Rounds (i : Nat) (ws : List Nat) (s : Sha1State) : Sha1State :=
  match ws with
  | [] => s
  | w :: ws => sha1Rounds (i + 1) ws (sha1Round i w s)

/-- Process one 64-byte block into the running state. -/
def sha1Block (s : Sha1State) (block : List Nat) : Sha1State :=
  let t := sha1Rounds 0 (sha1Extend 64 (blockWords block)) s
  { a := (s.a + t.a) % 2 ^ 32
    b := (s.b + t.b) % 2 ^ 32
    c := (s.c + t.c) % 2 ^ 32
    d := (s.d + t.d) % 2 ^ 32
    e := (s.e + t.e) % 2 ^ 32 }

/-- Split a message into 64-byte blocks.  The first argument is recursion
fuel; `sha1` passes the message length, which always suffices because every
step drops 64 bytes. -/
def chunks64 : Nat → List Nat → List (List Nat)
  | 0, _ => []
  | _, [] => []
  | fuel + 1, msg => msg.take 64 :: chunks64 fuel (msg.drop 64)

/-- Split a padded message into 64-byte blocks. -/
def sha1Blocks (msg : List Nat) : List (List Nat) :=
  chunks64 msg.length msg

/-- The initial SHA-1 state. -/
def sha1Init : Sha1State :=
  ⟨0x67452301, 0xEFCDAB89, 0x98BADCFE, 0x10325476, 0xC3D2E1F0⟩

/-- SHA-1 digest of a byte string, as its 20-byte value. -/
def sha1 (msg : List Nat) : List Nat :=
  let s := (sha1Blocks (sha1Pad msg)).foldl sha1Block sha1Init
  word32Bytes s.a ++ word32Bytes s.b ++ word32Bytes s.c ++ word32Bytes s.d ++ word32Bytes s.e

/-! ### Object identifiers (`src/object.rs`) -/

/-- A 20-byte object id (`object::Id`). -/
abbrev Id := List Nat

/-- `Id::hash`: SHA-1 of a byte sequence. -/
def Id.hash (bytes : List Nat) : Id := sha1 bytes

/-- `hex_encode`: the two lowercase-hex bytes of one byte (via `HEX_ENCODE`). -/
def hexEncode (byte : Nat) : List Nat :=
  let digit := fun n => if n < 10 then 48 + n else 87 + n
  [digit (byte / 16), digit (byte % 16)]

/-- `Id::write_hex`: the 40 lowercase-hex bytes of an id. -/
def Id.hex (id : Id) : List Nat := (id : List Nat).flatMap hexEncode

/-- `HEX_DECODE`: decode one hex character byte, `none` for the 255 entries. -/
def hexDecodeNib (code : Nat) : Option Nat :=
  if 48 ≤ code ∧ code ≤ 57 then some (code - 48)
  else if 65 ≤ code ∧ code ≤ 70 then some (code - 55)
  else if 97 ≤ code ∧ code ≤ 102 then some (code - 87)
  else none

/-- `hex_decode` on a two-byte chunk (`hi << 4 | lo`). -/
def hexDecodePair (hi lo : Nat) : Nat :=
  (hexDecodeNib hi).getD 255 * 16 + (hexDecodeNib lo).getD 255

/-- `Id::read_hex`: read exactly 40 bytes, fail unless all are hex characters,
and decode consecutive pairs.  Returns the id and the unconsumed input. -/
def Id.readHex (input : List Nat) : Option (Id × List Nat) :=
  let buffer := input.take 40
  if buffer.length < 40 then none
  else if buffer.any (fun b => (hexDecodeNib b).isNone) then none
  else some (((List.range 20).map fun i => hexDecodePair (buffer.getD (2 * i) 0)
    (buffer.getD (2 * i + 1) 0), input.drop 40))

/-- `Id::read_bytes`: read exactly 20 raw bytes. -/
def Id.readBytes (input : List Nat) : Option (Id × List Nat) :=
  if input.length < 20 then none else some (input.take 20, input.drop 20)

/-- `Id::to_path_buf`: `<hex[0:2]>/<hex[2:40]>` as a byte string (0x2F = `/`). -/
def Id.toPathBuf (id : Id) : List Nat :=
  hexEncode ((id : List Nat).getD 0 0) ++ 47 :: ((id : List Nat).drop 1).flatMap hexEncode

/-! ### File modes (`src/meta.rs`) -/

/-- `meta::Mode`. -/
inductive Mode where
  | directory
  | regular
  | executable
deriving DecidableEq, Repr

/-- `Mode::as_str` as bytes: `40000`, `100644`, `100755`. -/
def Mode.asStr : Mode → List Nat
  | .directory => [52, 48, 48, 48, 48]
  | .regular => [49, 48, 48, 54, 52, 52]
  | .executable => [49, 48, 48, 55, 53, 53]

/-- `Mode::as_u32`: `0o040000`, `0o100644`, `0o100755`. -/
def Mode.asU32 : Mode → Nat
  | .directory => 0o040000
  | .regular => 0o100644
  | .executable => 0o100755

/-- `TryFrom<u32> for Mode`. -/
def Mode.tryFromU32 (mode : Nat) : Option Mode :=
  if mode = 0o040000 then some .directory
  else if mode = 0o100644 then some .regular
  else if mode = 0o100755 then some .executable
  else none

/-- Modelled from the spec: the string-to-mode conversion used by
`TreeNode::read` (`meta::Mode::try_from(&str)` has no impl under `src/`);
§4.2 fixes the three literal mode strings. -/
def Mode.tryFromStr (mode : List Nat) : Option Mode :=
  if mode = Mode.asStr .directory then some .directory
  else if mode = Mode.asStr .regular then some .regular
  else if mode = Mode.asStr .executable then some .executable
  else none

/-! ### Byte-stream helpers mirroring `std::io` -/

/-- ASCII decimal rendering of a number (`write!("{}", n)`). -/
def decimalBytes (n : Nat) : List Nat := (Nat.toDigits 10 n).map Char.toNat

/-- `BufRead::read_until`: consume up to and including the first occurrence of
the delimiter (or everything, at end of input).  Returns the consumed bytes
(delimiter included when found) and the rest. -/
def readUntil (delim : Nat) : List Nat → (List Nat × List Nat)
  | [] => ([], [])
  | b :: rest =>
      if b = delim then ([b], rest)
      else
        let (consumed, remaining) := readUntil delim rest
        (b :: consumed, remaining)

/-! ### Objects: blob, tree, commit, author (`src/object/…`) -/

/-- `object::Blob`: an opaque byte sequence. -/
abbrev Blob := List Nat

/-- `Blob::len`. -/
def Blob.len (b : Blob) : Nat := (b : List Nat).length

/-- `Blob::write` (the body is the raw bytes). -/
def Blob.writeBytes (b : Blob) : List Nat := b

/-- `object::tree::TreeNode`: name component, id, mode. -/
structure TreeNode where
  path : List Nat
  id : Id
  mode : Mode
deriving DecidableEq, Repr

/-- `TreeNode::write`: `<ascii-octal-mode> <name>\0<20-byte id>`. -/
def TreeNode.writeBytes (n : TreeNode) : List Nat :=
  n.mode.asStr ++ 32 :: n.path ++ 0 :: (n.id : List Nat)

/-- `TreeNode::len`. -/
def TreeNode.len (n : TreeNode) : Nat :=
  n.mode.asStr.length + 1 + n.path.length + 1 + (n.id : List Nat).length

/-- `object::Tree`: an ordered sequence of tree nodes. -/
abbrev Tree := List TreeNode

/-- `Tree::write`. -/
def Tree.writeBytes (t : Tree) : List Nat := (t : List TreeNode).flatMap TreeNode.writeBytes

/-- `Tree::len`. -/
def Tree.len (t : Tree) : Nat := ((t : List TreeNode).map TreeNode.len).sum

/-- The timestamp carried by an author: unix seconds plus a `±HHMM` timezone
offset, exactly the information `chrono` renders with format `%s %z`. -/
structure Timestamp where
  secs : Nat
  tzNegative : Bool
  tzHour : Nat
  tzMinute : Nat
deriving DecidableEq, Repr

/-- Two-digit zero-padded decimal rendering (for `%z`'s `HHMM`). -/
def twoDigits (n : Nat) : List Nat := [48 + n / 10 % 10, 48 + n % 10]

/-- The bytes of `time.format("%s %z")`: seconds, space, sign, `HHMM`. -/
def Timestamp.writeBytes (t : Timestamp) : List Nat :=
  decimalBytes t.secs ++ 32 :: (if t.tzNegative then 45 else 43)
    :: (twoDigits t.tzHour ++ twoDigits t.tzMinute)

/-- `object::commit::Author`. -/
structure Author where
  name : List Nat
  email : List Nat
  time : Timestamp
deriving DecidableEq, Repr

/-- `Author::write`: `<name> <<email>> <%s %z>`. -/
def Author.writeBytes (a : Author) : List Nat :=
  a.name ++ 32 :: 60 :: a.email ++ 62 :: 32 :: a.time.writeBytes

/-- `Author::len` (the seconds are rendered to count their digits). -/
def Author.len (a : Author) : Nat :=
  a.name.length + 2 + a.email.length + 2 + (decimalBytes a.time.secs).length + 1 + 5

/-- Parse `chrono::DateTime::parse_from_str(time, "%s %z")` on the collected
bytes: decimal seconds, one space, a sign and four digits, nothing else. -/
def Timestamp.parse (input : List Nat) : Option Timestamp :=
  let secs := input.takeWhile fun b => 48 ≤ b ∧ b ≤ 57
  let rest := input.dropWhile fun b => 48 ≤ b ∧ b ≤ 57
  if secs = [] then none
  else
    match rest with
    | 32 :: sign :: h1 :: h2 :: m1 :: m2 :: [] =>
        if (sign = 43 ∨ sign = 45) ∧ [h1, h2, m1, m2].all (fun b => 48 ≤ b ∧ b ≤ 57) then
          some ⟨secs.foldl (fun acc b => acc * 10 + (b - 48)) 0, sign = 45,
            (h1 - 48) * 10 + (h2 - 48), (m1 - 48) * 10 + (m2 - 48)⟩
        else none
    | _ => none

/-- `Author::read` (`src/object/commit.rs:127`), byte for byte.  Note the
first assertion: after `read_until(b'<')` the consumed buffer ends with the
delimiter `b'<'` (0x3C), yet the code pops it and asserts it equals `b'>'`
(0x3E).  Assertion failures are modelled as `none`. -/
def Author.read (input : List Nat) : Option (Author × List Nat) := do
  let (name, r1) := readUntil 60 input
  -- assert_eq!(name.pop(), Some(b'>'))
  let last1 ← name.getLast?
  if last1 ≠ 62 then none else
  let name := name.dropLast
  -- assert_eq!(name.pop(), Some(b' '))
  let last2 ← name.getLast?
  if last2 ≠ 32 then none else
  let name := name.dropLast
  let (email, r2) := readUntil 32 r1
  let last3 ← email.getLast?
  if last3 ≠ 32 then none else
  let email := email.dropLast
  let last4 ← email.getLast?
  if last4 ≠ 62 then none else
  let email := email.dropLast
  let (time, r3) := readUntil 32 r2
  -- read_exact five more bytes for the `±HHMM` offset
  if r3.length < 5 then none else
  let time := time ++ r3.take 5
  let t ← Timestamp.parse time
  some (⟨name, email, t⟩, r3.drop 5)

/-- `object::Commit`. -/
structure Commit where
  tree : Id
  parent : Option Id
  author : Author
  message : List Nat
deriving DecidableEq, Repr

/-- `Commit::write`: `tree`, optional `parent`, `author`, `committer` (the
author again), blank line, message. -/
def Commit.writeBytes (c : Commit) : List Nat :=
  [116, 114, 101, 101, 32] ++ c.tree.hex
    ++ (match c.parent with
        | some parent => [10, 112, 97, 114, 101, 110, 116, 32] ++ parent.hex
        | none => [])
    ++ [10, 97, 117, 116, 104, 111, 114, 32] ++ c.author.writeBytes
    ++ [10, 99, 111, 109, 109, 105, 116, 116, 101, 114, 32] ++ c.author.writeBytes
    ++ [10, 10] ++ c.message

/-- `Commit::len`. -/
def Commit.len (c : Commit) : Nat :=
  5 + (c.tree : List Nat).length * 2
    + (match c.parent with
       | some parent => 8 + (parent : List Nat).length * 2
       | none => 0)
    + 8 + c.author.len + 11 + c.author.len + 2 + c.message.length

/-- `object::Object`. -/
inductive Object where
  | blob (b : Blob)
  | commit (c : Commit)
  | tree (t : Tree)
deriving DecidableEq, Repr

/-- `Object::type`. -/
def Object.typeBytes : Object → List Nat
  | .blob _ => [98, 108, 111, 98]
  | .commit _ => [99, 111, 109, 109, 105, 116]
  | .tree _ => [116, 114, 101, 101]

/-- `Object::len`. -/
def Object.len : Object → Nat
  | .blob b => b.len
  | .commit c => c.len
  | .tree t => t.len

/-- The body written after the header. -/
def Object.bodyBytes : Object → List Nat
  | .blob b => b.writeBytes
  | .commit c => c.writeBytes
  | .tree t => t.writeBytes

/-- `Object::to_bytes`: `<type> <ascii-decimal-length>\0<body>`. -/
def Object.toBytes (o : Object) : List Nat :=
  o.typeBytes ++ 32 :: decimalBytes o.len ++ 0 :: o.bodyBytes

/-! ### Object readers -/

/-- `TreeNode::read`.  Outer `none` models an error or assertion failure;
`some none` is the clean end of the node stream. -/
def TreeNode.read (input : List Nat) : Option (Option (TreeNode × List Nat)) :=
  let (modeBuf, r1) := readUntil 32 input
  match modeBuf.getLast? with
  | none => some none
  | some b =>
      if b ≠ 32 then none
      else
        match Mode.tryFromStr modeBuf.dropLast with
        | none => none
        | some mode =>
            let (pathBuf, r2) := readUntil 0 r1
            if pathBuf.getLast? ≠ some 0 then none
            else
              match Id.readBytes r2 with
              | none => none
              | some (id, r3) => some (some (⟨pathBuf.dropLast, id, mode⟩, r3))

/-- `Tree::read`: collect nodes until the stream ends.  The fuel is an upper
bound on the number of nodes (each consumes at least one byte). -/
def Tree.readGo (fuel : Nat) (input : List Nat) (acc : List TreeNode) : Option Tree :=
  match fuel with
  | 0 => none
  | fuel + 1 =>
      match TreeNode.read input with
      | none => none
      | some none => some acc
      | some (some (node, rest)) => Tree.readGo fuel rest (acc ++ [node])

/-- `Tree::read` on a byte string. -/
def Tree.read (input : List Nat) : Option Tree :=
  Tree.readGo (input.length + 1) input []

/-- `Commit::read` (`src/object/commit.rs:36`): tree id hex, newline, optional
`parent` line, `author` line, `committer` line, blank line, message.
Assertion failures (`assert_eq!`) are modelled as `none`.  (The trailing
`read_to_string` UTF-8 check is not modelled; the message is kept as bytes.) -/
def Commit.read (input : List Nat) : Option Commit := do
  let (tree, r1) ← Id.readHex input
  match r1 with
  | 10 :: r2 =>
      let (tag, r3) := readUntil 32 r2
      -- `parent ` = [112, 97, 114, 101, 110, 116, 32]
      let (parent, tag, r5) ←
        if tag = [112, 97, 114, 101, 110, 116, 32] then do
          let (parent, r4) ← Id.readHex r3
          match r4 with
          | 10 :: r4b =>
              let (tag2, r5) := readUntil 32 r4b
              some (some parent, tag2, r5)
          | _ => none
        else
          some ((none : Option Id), tag, r3)
      -- assert_eq!(tag, b"author ")
      if tag ≠ [97, 117, 116, 104, 111, 114, 32] then none else
      let (author, r6) ← Author.read r5
      match r6 with
      | 10 :: r7 =>
          let (tag3, r8) := readUntil 32 r7
          -- assert_eq!(tag, b"committer ")
          if tag3 ≠ [99, 111, 109, 109, 105, 116, 116, 101, 114, 32] then none else
          let (_committer, r9) ← Author.read r8
          match r9 with
          | 10 :: 10 :: message => some ⟨tree, parent, author, message⟩
          | _ => none
      | _ => none
  | _ => none

/-- Parse an ASCII decimal length field. -/
def parseDecimal (digits : List Nat) : Option Nat :=
  if digits = [] ∨ digits.any (fun b => b < 48 ∨ 57 < b) then none
  else some (digits.foldl (fun acc b => acc * 10 + (b - 48)) 0)

/-- Modelled from the spec: `Object::read`, which is called by
`Database::load` but is missing under `src/`.  Per §4.2 the reader first
consumes the header `type SP length NUL` and dispatches by type; a blob body
is the raw remaining bytes, tree and commit bodies are delegated to
`Tree::read` / `Commit::read`.  Since reading mirrors writing and
`Commit::read` starts at the tree id hex, the dispatcher consumes the literal
`tree ` tag that `Commit::write` places first in the body. -/
def Object.read (input : List Nat) : Option Object :=
  let (typBuf, r1) := readUntil 32 input
  if typBuf.getLast? ≠ some 32 then none
  else
    let typ := typBuf.dropLast
    let (lenBuf, r2) := readUntil 0 r1
    if lenBuf.getLast? ≠ some 0 then none
    else
      match parseDecimal lenBuf.dropLast with
      | none => none
      | some _len =>
          -- `blob` / `tree` / `commit`
          if typ = [98, 108, 111, 98] then some (.blob r2)
          else if typ = [116, 114, 101, 101] then (Tree.read r2).map .tree
          else if typ = [99, 111, 109, 109, 105, 116] then
            match r2 with
            | 116 :: 114 :: 101 :: 101 :: 32 :: body => (Commit.read body).map .commit
            | _ => none
          else none

/-! ### The filesystem model and the object store (`src/database.rs`, `src/file.rs`)

The filesystem is a path-keyed association list.  The zlib codec (`flate2`)
is external to the repository; it is modelled as the tag `.zlib` wrapping the
uncompressed bytes, which embeds exactly its lossless round-trip contract. -/

/-- Contents of one file: a zlib stream (identified by the bytes it encodes)
or raw bytes. -/
inductive FileData where
  | zlib (content : List Nat)
  | raw (content : List Nat)
deriving DecidableEq, Repr

/-- A filesystem: paths (byte strings) mapped to contents. -/
abbrev FS := List (List Nat × FileData)

/-- Look up a path. -/
def fsLookup (path : List Nat) (fs : FS) : Option FileData :=
  match fs with
  | [] => none
  | (p, d) :: rest => if p = path then some d else fsLookup path rest

/-- Create or replace a file. -/
def fsSet (path : List Nat) (data : FileData) (fs : FS) : FS :=
  match fs with
  | [] => [(path, data)]
  | (p, d) :: rest => if p = path then (p, data) :: rest else (p, d) :: fsSet path data rest

/-- Remove a file. -/
def fsErase (path : List Nat) (fs : FS) : FS :=
  fs.filter fun e => e.1 ≠ path

/-- `Path::with_file_name`: drop the final component, keep the directory
(including its trailing `/`), and append the new name. -/
def withFileName (target name : List Nat) : List Nat :=
  (target.reverse.dropWhile fun b => b ≠ 47).reverse ++ name

/-- The byte prefix `tmp_obj_` of temp file names (`file::Temp::new`). -/
def tmpObjPrefix : List Nat := [116, 109, 112, 95, 111, 98, 106, 95]

/-- One observable filesystem effect of `Database::store`. -/
inductive StoreEvent where
  | createTemp (path : List Nat)
  | writeTemp (path : List Nat) (data : FileData)
  | rename (source target : List Nat)
deriving DecidableEq, Repr

/-- Result of `Database::store`: the returned id, the filesystem afterwards,
and the effects performed (empty on the early-return path). -/
structure StoreResult where
  result : Id
  fs : FS
  events : List StoreEvent

/-- `Database::store` (`src/database.rs:33`): hash the canonical bytes,
exclusive-create a random temp sibling `tmp_obj_<suffix>` of the target path
(`file::Temp::new` / `Atomic::new`) — treating `AlreadyExists` from that
create as success, returning the id with no write — then zlib-compress into
the temp file and atomically rename it over the target. -/
def Database.store (fs : FS) (o : Object) (suffix : List Nat) : StoreResult :=
  let buffer := o.toBytes
  let id := Id.hash buffer
  let path := id.toPathBuf
  let temp := withFileName path (tmpObjPrefix ++ suffix)
  if (fsLookup temp fs).isSome then
    { result := id, fs := fs, events := [] }
  else
    let fs1 := fsSet temp (.raw []) fs
    let fs2 := fsSet temp (.zlib buffer) fs1
    let fs3 := fsSet path (.zlib buffer) (fsErase temp fs2)
    { result := id
      fs := fs3
      events := [.createTemp temp, .writeTemp temp (.zlib buffer), .rename temp path] }

/-- `Database::load` (`src/database.rs:20`): open the content-addressed path,
decompress, and parse.  `none` covers NotFound, decompression failure and any
parse error or assertion failure. -/
def Database.load (fs : FS) (id : Id) : Option Object :=
  match fsLookup id.toPathBuf fs with
  | some (.zlib bytes) => Object.read bytes
  | _ => none

/-! ### Concrete inputs used by witnesses and counterexamples -/

/-- The bytes of `hello\n` (scenario S2). -/
def helloBytes : List Nat := [104, 101, 108, 108, 111, 10]

/-- A concrete author: name `alice`, email `a@b.c`, epoch time, offset `+0000`. -/
def authorS2 : Author := ⟨[97, 108, 105, 99, 101], [97, 64, 98, 46, 99], ⟨0, false, 0, 0⟩⟩

/-- A concrete root commit of the S2 blob with message `first\n`. -/
def commitS2 : Commit :=
  ⟨Id.hash (Object.toBytes (.blob helloBytes)), none, authorS2, [102, 105, 114, 115, 116, 10]⟩

/-- A concrete random temp-name suffix (`abc123`). -/
def tmpSuffix : List Nat := [97, 98, 99, 49, 50, 51]

/-- A filesystem already holding the stored S2 blob at its content-addressed
path. -/
def fsWithHello : FS :=
  [((Id.hash (Object.toBytes (.blob helloBytes))).toPathBuf,
    .zlib (Object.toBytes (.blob helloBytes)))]

/-! ### Paths (`std::path` + `util::PathBuf`)

An index path is a list of components, each a byte string.  `util::PathBuf`
orders paths by their raw bytes (components joined by `/` = 0x2F); the
`std::path` operations (`ancestors`, `starts_with`) work component-wise. -/

/-- One path component (a byte string). -/
abbrev Comp := List Nat

/-- A relative path: its list of `/`-separated components. -/
abbrev Path := List Comp

/-- The raw bytes of a path: components joined by `/` (0x2F). -/
def pathBytes : Path → List Nat
  | [] => []
  | [c] => c
  | c :: rest => c ++ 47 :: pathBytes rest

/-- Strict byte-wise (lexicographic) order on byte strings, as `util::Key`
compares `&[u8]`. -/
def bytesLt : List Nat → List Nat → Bool
  | [], [] => false
  | [], _ :: _ => true
  | _ :: _, [] => false
  | a :: as, b :: bs => a < b || (a = b && bytesLt as bs)

/-- A well-formed component: nonempty, no `/`, no NUL. -/
def ValidComp (c : Comp) : Prop := c ≠ [] ∧ 47 ∉ c ∧ 0 ∉ c

/-- A well-formed nonempty relative path. -/
def ValidPath (p : Path) : Prop := p ≠ [] ∧ ∀ c ∈ p, ValidComp c

instance : DecidablePred ValidComp := fun c => by unfold ValidComp; infer_instance

instance : DecidablePred ValidPath := fun p => by unfold ValidPath; infer_instance

/-- `Path::ancestors().skip(1)`: the proper prefixes of `p`, deepest first,
ending with the root `[]`. -/
def properAncestors (p : Path) : List Path :=
  (List.range p.length).map fun i => p.take (p.length - 1 - i)

/-! ### Index entries and the in-memory map (`src/index.rs`, `src/meta.rs`)

The `BTreeMap<util::PathBuf, Entry>` is a list of entries strictly sorted by
the byte-wise order of their paths; the key of an entry is always the bytes
of its `path` field, exactly as the source inserts
`entry.path().to_path_buf()`. -/

/-- `meta::Metadata` (ten `u32` fields, the mode as the enum). -/
structure Metadata where
  ctime : Nat
  ctimeNsec : Nat
  mtime : Nat
  mtimeNsec : Nat
  dev : Nat
  ino : Nat
  mode : Mode
  uid : Nat
  gid : Nat
  size : Nat
deriving DecidableEq, Repr

/-- `Metadata::write`: ten big-endian `u32`s. -/
def Metadata.writeBytes (m : Metadata) : List Nat :=
  word32Bytes m.ctime ++ word32Bytes m.ctimeNsec ++ word32Bytes m.mtime
    ++ word32Bytes m.mtimeNsec ++ word32Bytes m.dev ++ word32Bytes m.ino
    ++ word32Bytes m.mode.asU32 ++ word32Bytes m.uid ++ word32Bytes m.gid
    ++ word32Bytes m.size

/-- `index::Entry`. -/
structure Entry where
  metadata : Metadata
  id : Id
  flag : Nat
  path : Path
deriving DecidableEq, Repr

/-- `Entry::new`: the flag word is the path length clamped to `0xFFF`. -/
def Entry.new (metadata : Metadata) (id : Id) (path : Path) : Entry :=
  ⟨metadata, id, min 0xFFF (pathBytes path).length, path⟩

/-- The map key of an entry: the raw bytes of its path. -/
def entryKey (e : Entry) : List Nat := pathBytes e.path

/-- `Entry::len`: metadata, id, flag word, path bytes. -/
def Entry.lenBytes (e : Entry) : Nat :=
  40 + (e.id : List Nat).length + 2 + (pathBytes e.path).length

/-- `Entry::padding`: `0b1000 - (len & 0b0111)`, in `[1, 8]`. -/
def Entry.padding (e : Entry) : Nat := 8 - e.lenBytes % 8

/-- `Entry::write`: metadata, id, big-endian `u16` flag, path, zero padding. -/
def Entry.writeBytes (e : Entry) : List Nat :=
  e.metadata.writeBytes ++ (e.id : List Nat) ++ [e.flag / 256 % 256, e.flag % 256]
    ++ pathBytes e.path ++ List.replicate e.padding 0

/-- `BTreeMap` lookup by byte key. -/
def btLookup (p : Path) (l : List Entry) : Option Entry :=
  l.find? fun e => entryKey e = pathBytes p

/-- `BTreeMap` removal by byte key (keys are unique in every map the code
builds, so removing every occurrence coincides with `BTreeMap::remove`). -/
def btRemove (p : Path) (l : List Entry) : List Entry :=
  l.filter fun e => entryKey e ≠ pathBytes p

/-- `BTreeMap` insertion into the sorted entry list, replacing an
equal-keyed entry. -/
def btInsert (e : Entry) : List Entry → List Entry
  | [] => [e]
  | x :: xs =>
      if entryKey e = entryKey x then e :: xs
      else if bytesLt (entryKey e) (entryKey x) then e :: x :: xs
      else x :: btInsert e xs

/-- The in-memory index: the sorted entry map and the `changed` flag. -/
structure Index where
  entries : List Entry
  changed : Bool
deriving DecidableEq, Repr

/-- `Index::descendants` (`src/index.rs:145`): range-scan strictly above
`path` in byte order (on the sorted list, the suffix of strictly greater
keys), skip the sibling run that shares a byte prefix without being
component-wise below `path`, then take the run of component-wise
descendants. -/
def Index.descendants (p : Path) (entries : List Entry) : List Path :=
  ((((entries.dropWhile fun e => ! bytesLt (pathBytes p) (entryKey e)).dropWhile
      fun e => (pathBytes p).isPrefixOf (entryKey e) && ! decide (p <+: e.path)).takeWhile
      fun e => decide (p <+: e.path)).map Entry.path)

/-- `Index::insert` (`src/index.rs:111`): build the entry, remove every
conflicting proper ancestor (`ancestors().skip(1).take_while(!= "")`), remove
every descendant, then insert; `changed` absorbs whether the key was absent
(`insert(..).is_none()`). -/
def Index.insertOp (idx : Index) (meta : Metadata) (id : Id) (p : Path) : Index :=
  let entry := Entry.new meta id p
  let afterAnc := ((properAncestors p).takeWhile fun a => a ≠ []).foldl
    (fun m a => btRemove a m) idx.entries
  let afterDesc := (Index.descendants p afterAnc).foldl (fun m d => btRemove d m) afterAnc
  let prev := btLookup p afterDesc
  ⟨btInsert entry afterDesc, idx.changed || prev.isNone⟩

/-- The `BTreeMap` ordering invariant: entries pairwise strictly increasing
in the byte-wise order of their keys. -/
def sortedKeys (l : List Entry) : Prop :=
  l.Pairwise fun a b => bytesLt (entryKey a) (entryKey b) = true

instance : DecidablePred sortedKeys := fun l => by unfold sortedKeys; infer_instance

/-! ### The on-disk index (`DIRC` v2) and `Index::lock` -/

/-- The serialized index: `DIRC`, version 2, entry count, entries in key
order, and the SHA-1 trailer over everything before it — exactly what
`Index::commit` streams through the checksum writer. -/
def indexFileBytes (entries : List Entry) : List Nat :=
  let body := [68, 73, 82, 67] ++ word32Bytes 2 ++ word32Bytes entries.length
    ++ entries.flatMap Entry.writeBytes
  body ++ sha1 body

/-- `Index::commit` (`src/index.rs:176`): if nothing changed, release the
lock and leave the target alone; otherwise write header, entries and
checksum trailer and rename over the target.  The result is the new target
content. -/
def Index.commitOp (idx : Index) (disk : Option (List Nat)) : Option (List Nat) :=
  if idx.changed then some (indexFileBytes idx.entries) else disk

/-- Outcome of a fallible read: success, error-or-panic, or divergence. -/
inductive ReadOutcome (α : Type) where
  | ok (a : α)
  | error
  | hang
deriving DecidableEq, Repr

/-- Strip every trailing NUL (`while buffer.ends_with(&[0]) { pop }`). -/
def stripTrailingZeros (buf : List Nat) : List Nat :=
  (buf.reverse.dropWhile fun b => b = 0).reverse

/-- Split path bytes back into components at `/` (`PathBuf::from`). -/
def splitPath (bs : List Nat) : Path := bs.splitOn 47

/-- The path-reading loop of `Entry::read` (`src/index.rs:360`): after an
initial 2-byte read, take 8 bytes at a time until the buffer ends with a NUL.
At end of input `take(8).read_to_end` appends 0 bytes and the loop can never
terminate: that state is `none` (divergence).  The fuel only bounds the
recursion; callers pass more than the input length, so exhausting it is
unreachable. -/
def pathLoop : Nat → List Nat → List Nat → Option (List Nat × List Nat)
  | 0, _, _ => none
  | fuel + 1, buf, rem =>
      if buf.getLast? = some 0 then some (buf, rem)
      else if rem.isEmpty then none
      else pathLoop fuel (buf ++ rem.take 8) (rem.drop 8)

/-- `Entry::read` (`src/index.rs:355`): ten `u32`s (failing on an invalid
mode), 20 id bytes, the `u16` flag, then the padded path. -/
def Entry.read (stream : List Nat) : ReadOutcome (Entry × List Nat) :=
  if stream.length < 40 then .error
  else
    let w := fun i => word32 (stream.getD (4 * i) 0) (stream.getD (4 * i + 1) 0)
      (stream.getD (4 * i + 2) 0) (stream.getD (4 * i + 3) 0)
    match Mode.tryFromU32 (w 6) with
    | none => .error
    | some mode =>
        let s1 := stream.drop 40
        if s1.length < 20 then .error
        else
          let id : Id := s1.take 20
          let s2 := s1.drop 20
          if s2.length < 2 then .error
          else
            let flag := s2.getD 0 0 * 256 + s2.getD 1 0
            let s3 := s2.drop 2
            match pathLoop (s3.length + 2) (s3.take 2) (s3.drop 2) with
            | none => .hang
            | some (buf, rest) =>
                .ok (⟨⟨w 0, w 1, w 2, w 3, w 4, w 5, mode, w 7, w 8, w 9⟩,
                  id, flag, splitPath (stripTrailingZeros buf)⟩, rest)

/-- The entry-count loop of `Index::read`, inserting each parsed entry into
the map. -/
def readEntriesLoop : Nat → List Nat → List Entry → ReadOutcome (List Entry)
  | 0, _, acc => .ok acc
  | count + 1, stream, acc =>
      match Entry.read stream with
      | .error => .error
      | .hang => .hang
      | .ok (e, rest) => readEntriesLoop count rest (btInsert e acc)

/-- `Index::read` (`src/index.rs:62`): check the `DIRC` signature and the
version, read the count, then parse that many entries from `buffer[12..]`
(the trailer bytes included in the cursor, trailing garbage ignored).  A
buffer shorter than the 12-byte header fails (header slicing).  -/
def Index.read (buffer : List Nat) : ReadOutcome (List Entry) :=
  if buffer.length < 12 then .error
  else if buffer.take 4 ≠ [68, 73, 82, 67] then .error
  else if word32 (buffer.getD 4 0) (buffer.getD 5 0) (buffer.getD 6 0) (buffer.getD 7 0) ≠ 2
  then .error
  else
    readEntriesLoop
      (word32 (buffer.getD 8 0) (buffer.getD 9 0) (buffer.getD 10 0) (buffer.getD 11 0))
      (buffer.drop 12) []

/-- `Index::lock` (`src/index.rs:33`): with no target file, start empty;
otherwise parse the whole buffer and compare the SHA-1 of everything but the
final 20 bytes against those 20 bytes (`assert_eq!`, a failing assertion
being `.error`).  `changed` starts `false`. -/
def Index.lockFromDisk (disk : Option (List Nat)) : ReadOutcome Index :=
  match disk with
  | none => .ok ⟨[], false⟩
  | some buffer =>
      match Index.read buffer with
      | .error => .error
      | .hang => .hang
      | .ok entries =>
          if sha1 (buffer.take (buffer.length - 20)) = buffer.drop (buffer.length - 20)
          then .ok ⟨entries, false⟩
          else .error

/-! ### Concrete index scenario values -/

/-- The path `hello.txt` as a one-component path. -/
def pHello : Path := [[104, 101, 108, 108, 111, 46, 116, 120, 116]]

/-- Stat data for the S2 `hello.txt` file (size 6, regular). -/
def metaS2 : Metadata := ⟨0, 0, 0, 0, 0, 0, .regular, 0, 0, 6⟩

/-- The S2 index entry: `hello.txt` at the S2 blob id. -/
def entryS2 : Entry := Entry.new metaS2 (Id.hash (Object.toBytes (.blob helloBytes))) pHello

/-- The committed S2 index file. -/
def diskS2 : List Nat := indexFileBytes [entryS2]

/-- Stat data for `hello.txt` after a metadata-only touch: same mode and
size, different mtime. -/
def metaTouched : Metadata := ⟨0, 0, 999, 0, 0, 0, .regular, 0, 0, 6⟩

/-- The bytes of `world\n`. -/
def worldBytes : List Nat := [119, 111, 114, 108, 100, 10]

/-- The id of the blob `world\n`. -/
def idWorld : Id := Id.hash (Object.toBytes (.blob worldBytes))

/-! ### The index tree iterator (`index::Iter`, `src/index.rs:205`) -/

/-- `index::State`: the file most recently produced by the underlying map
iterator, either not yet yielded or already yielded. -/
inductive IterState where
  | yieldE (e : Entry)
  | yielded (e : Entry)
deriving DecidableEq, Repr

/-- `index::Iter`: the remaining file cursor, the state, and the queue of
directories waiting to be emitted. -/
structure IterSt where
  iter : List Entry
  state : Option IterState
  queue : List Path
deriving DecidableEq, Repr

/-- `index::Node`: a file entry or a synthesized directory. -/
inductive Node where
  | file (e : Entry)
  | directory (p : Path)
deriving DecidableEq, Repr

/-- `Node::path`. -/
def Node.path : Node → Path
  | .file e => e.path
  | .directory p => p

/-- `Node::mode` (a directory's mode is synthesized). -/
def Node.mode : Node → Mode
  | .file e => e.metadata.mode
  | .directory _ => .directory

/-- `Iter::new`: prime the state with the first file. -/
def Iter.init (entries : List Entry) : IterSt :=
  ⟨entries.tail, entries.head?.map .yieldE, []⟩

/-- The ancestors pushed between the just-yielded file `prev` and the next
file: `prev.path.ancestors().skip(1).take_while(|a| next.map_or(true, |n|
!n.path.starts_with(a)))`. -/
def gapDirs (prev : Path) (next : Option Entry) : List Path :=
  (properAncestors prev).takeWhile fun a =>
    match next with
    | none => true
    | some n => ! decide (a <+: n.path)

/-- `Iter::next`.  The source's tail call `self.next()` recurses exactly
once: the rebuilt state immediately yields from its fresh queue, yields its
`Yield` file, or ends — so one unit of fuel makes the recursion structural. -/
def Iter.nextGo (fuel : Nat) (st : IterSt) : Option (Node × IterSt) :=
  match st.queue with
  | d :: q => some (.directory d, ⟨st.iter, st.state, q⟩)
  | [] =>
      match st.state with
      | none => none
      | some (.yieldE e) => some (.file e, ⟨st.iter, some (.yielded e), []⟩)
      | some (.yielded prev) =>
          match fuel with
          | 0 => none
          | fuel + 1 =>
              Iter.nextGo fuel
                ⟨st.iter.tail, st.iter.head?.map .yieldE, gapDirs prev.path st.iter.head?⟩

/-- `Iter::next` with its single level of self-recursion. -/
def Iter.next (st : IterSt) : Option (Node × IterSt) := Iter.nextGo 1 st

/-- An upper bound on the number of nodes the iterator can still produce
(each `next` strictly decreases it). -/
def IterSt.measure (st : IterSt) : Nat :=
  (match st.state with
   | none => 0
   | some (.yielded e) => e.path.length + 1
   | some (.yieldE e) => e.path.length + 2)
    + st.queue.length + (st.iter.map fun e => e.path.length + 2).sum

/-- Drain the iterator (the fuel is an upper bound on the node count). -/
def Iter.runGo (fuel : Nat) (st : IterSt) : List Node :=
  match fuel with
  | 0 => []
  | fuel + 1 =>
      match Iter.next st with
      | none => []
      | some (n, st2) => n :: Iter.runGo fuel st2

/-- The full node sequence of the index iterator over the sorted entries. -/
def Iter.run (entries : List Entry) : List Node :=
  Iter.runGo (IterSt.measure (Iter.init entries)) (Iter.init entries)

/-- The node tail produced after a just-yielded file, phrased with the
source's `takeWhile` gap (`gapDirs`); the bridge to the spec's `filter`
description is `tailSeqGo_eq_tailSeq`. -/
def tailSeqGo : Entry → List Entry → List Node
  | prev, [] => (properAncestors prev.path).map .directory
  | prev, n :: rest => (gapDirs prev.path (some n)).map .directory ++ .file n :: tailSeqGo n rest

/-- The node sequence still to come, by iterator state. -/
def bodyGo : Option IterState → List Entry → List Node
  | none, _ => []
  | some (.yieldE e), iter => .file e :: tailSeqGo e iter
  | some (.yielded e), iter => tailSeqGo e iter

/-- Stated from the spec, for comparison with `Iter.run`: the directories
emitted between successive files `A` and `B` are EXACTLY the ancestors of
`A` that are not ancestors of `B`, deepest first. -/
def gapDirsSpec (a b : Path) : List Path :=
  (properAncestors a).filter fun anc => ! decide (anc <+: b)

/-- Stated from the spec, for comparison with `Iter.run`: after each file
come the gap directories against the next file; after the last file, all of
its ancestors up to and including the root `[]`. -/
def tailSeq : Entry → List Entry → List Node
  | prev, [] => (properAncestors prev.path).map .directory
  | prev, n :: rest => (gapDirsSpec prev.path n.path).map .directory ++ .file n :: tailSeq n rest

/-- Stated from the spec, for comparison with `Iter.run`: each file in map
order, interleaved with the synthesized directory runs. -/
def iterSpec : List Entry → List Node
  | [] => []
  | e :: es => .file e :: tailSeq e es

/-- `q` lies strictly below the directory `d` (proper component prefix). -/
def underOf (d q : Path) : Prop := d <+: q ∧ d ≠ q

/-- Post-order side condition between two emitted nodes: a directory is never
followed by anything strictly below it. -/
def nodeOk (x y : Node) : Prop := ∀ d, x = .directory d → ¬ underOf d y.path

/-! ### The commit tree walk (`src/command/commit.rs:99`) -/

/-- `Vec::resize(n, 0)`. -/
def vecResize (l : List Nat) (n : Nat) : List Nat :=
  if l.length ≤ n then l ++ List.replicate (n - l.length) 0 else l.take n

/-- The running state of `Commit::walk_index`: the pending tree-entry stack,
the per-depth child counts, the object store, and the counter feeding fresh
temp-name suffixes. -/
structure WalkSt where
  stack : List TreeNode
  count : List Nat
  db : FS
  next : Nat

/-- One iteration of the `for node in &self.index` loop of
`Commit::walk_index`: files push an entry; directories pop the child count
(`continue` on zero), split the stack, store the tree, and push a directory
entry; then the parent's child count is bumped (the root `""` tolerates an
empty count stack, anything else would be `unreachable!()`). -/
def walkNode (suffix : Nat → List Nat) (st : WalkSt) (node : Node) :
    Except String WalkSt := do
  let path := node.path
  let depth := path.length
  let name : List Nat := (path.getLast?).getD []
  let (st, id) ← (do
    match node with
    | .file entry =>
        pure ({ st with count := vecResize st.count depth }, entry.id)
    | .directory _ =>
        let count := vecResize st.count (depth + 1)
        match count.getLast? with
        | none => throw "unreachable"
        | some 0 => throw ""  -- handled by the caller as `continue`
        | some c =>
            let i := st.stack.length - c
            let r := Database.store st.db (.tree (st.stack.drop i)) (suffix st.next)
            pure ((⟨st.stack.take i, count.dropLast, r.fs, st.next + 1⟩ : WalkSt), r.result))
  let stack := st.stack ++ [⟨name, id, node.mode⟩]
  match st.count.getLast? with
  | none => if path = [] then pure { st with stack } else throw "unreachable"
  | some c => pure { st with stack, count := st.count.set (st.count.length - 1) (c + 1) }

/-- `walkNode` with the `continue` of the zero-child directory case folded
back into normal control flow. -/
def walkNodeStep (suffix : Nat → List Nat) (st : WalkSt) (node : Node) :
    Except String WalkSt :=
  match node with
  | .directory _ =>
      match walkNode suffix st node with
      | .error "" =>
          .ok { st with count := (vecResize st.count (node.path.length + 1)).dropLast }
      | r => r
  | _ => walkNode suffix st node

/-- `Commit::walk_index`: fold the iterator's nodes, then pop the root tree
id — `expect("[INTERNAL ERROR]: index must contain at least root
directory")`. -/
def Commit.walkIndex (entries : List Entry) (db : FS) (suffix : Nat → List Nat) :
    Except String (Id × FS) :=
  match (Iter.run entries).foldlM (walkNodeStep suffix) ⟨[], [], db, 0⟩ with
  | .error m => .error m
  | .ok st =>
      match st.stack.getLast? with
      | none => .error "index must contain at least root directory"
      | some node => .ok (node.id, st.db)

/-- The observable outcome of `Commit::run`: the command result, the object
store, and HEAD. -/
structure CommitRunResult where
  result : Except String Id
  db : FS
  head : Option Id
deriving Repr

/-- `Commit::run` (`src/command/commit.rs:64`): walk the index into trees
first; only on success store the commit object (HEAD as parent) and write
the new HEAD.  A failed walk changes neither the object store nor HEAD. -/
def Commit.runCommand (entries : List Entry) (db : FS) (head : Option Id)
    (suffix : Nat → List Nat) (csuffix : List Nat) (author : Author) (message : List Nat) :
    CommitRunResult :=
  match Commit.walkIndex entries db suffix with
  | .error m => ⟨.error m, db, head⟩
  | .ok (treeId, db1) =>
      let r := Database.store db1 (.commit ⟨treeId, head, author, message⟩) csuffix
      ⟨.ok r.result, r.fs, some r.result⟩

/-- Concrete entries `4`, `a/b/1`, `a/d/2` (byte-sorted), echoing the walk
example in the source comments. -/
def entryC4txt : Entry := Entry.new metaS2 (Id.hash []) [[52]]

/-- The entry `a/b/1`. -/
def entryAB1 : Entry := Entry.new metaS2 (Id.hash []) [[97], [98], [49]]

/-- The entry `a/d/2`. -/
def entryAD2 : Entry := Entry.new metaS2 (Id.hash []) [[97], [100], [50]]

/-! ### Status engine: `detect_changes` (`src/command/status.rs:288`)

The HEAD state (`path -> (id, mode)`), the tracked-file state
(`path -> Metadata`) and the two change maps are path-byte-keyed association
maps; `workspace.read` is the total function from a tracked path to the
file's current bytes. -/

/-- Association-map lookup by byte key. -/
def amLookup {α : Type} (k : List Nat) : List (List Nat × α) → Option α
  | [] => none
  | (q, v) :: rest => if q = k then some v else amLookup k rest

/-- Association-map insert-or-replace (`BTreeMap::insert`). -/
def amInsert {α : Type} (k : List Nat) (v : α) : List (List Nat × α) → List (List Nat × α)
  | [] => [(k, v)]
  | (q, w) :: rest => if q = k then (q, v) :: rest else (q, w) :: amInsert k v rest

/-- `status::IndexHeadChange`. -/
inductive IndexHeadChange where
  | added
  | deleted
  | modified
deriving DecidableEq, Repr

/-- `status::WorkspaceIndexChange`. -/
inductive WorkspaceIndexChange where
  | deleted
  | modified
deriving DecidableEq, Repr

/-- `status::Changes`: the two change maps. -/
structure Changes where
  indexHead : List (List Nat × IndexHeadChange)
  workspaceIndex : List (List Nat × WorkspaceIndexChange)
deriving DecidableEq, Repr

/-- One iteration of the `detect_changes` loop over the index entries:
compare against HEAD (Added / Modified / nothing), then against the tracked
working state — absent ⇒ Deleted; changed mode or size ⇒ Modified; otherwise
hash the file as a blob and compare against the stored id. -/
def detectStep (head : List (List Nat × (Id × Mode))) (tracked : List (List Nat × Metadata))
    (content : List Nat → List Nat) (ch : Changes) (e : Entry) : Changes :=
  let ch :=
    match amLookup (entryKey e) head with
    | some (id, mode) =>
        if mode = e.metadata.mode ∧ id = e.id then ch
        else { ch with indexHead := amInsert (entryKey e) .modified ch.indexHead }
    | none => { ch with indexHead := amInsert (entryKey e) .added ch.indexHead }
  match amLookup (entryKey e) tracked with
  | none => { ch with workspaceIndex := amInsert (entryKey e) .deleted ch.workspaceIndex }
  | some md =>
      if md.mode ≠ e.metadata.mode ∨ md.size ≠ e.metadata.size then
        { ch with workspaceIndex := amInsert (entryKey e) .modified ch.workspaceIndex }
      else if Id.hash (Object.toBytes (.blob (content (entryKey e)))) ≠ e.id then
        { ch with workspaceIndex := amInsert (entryKey e) .modified ch.workspaceIndex }
      else ch

/-- `Status::detect_changes`: the loop over `index.files()`, then the sweep
over HEAD paths marking Deleted those that are no file in the index. -/
def detectChanges (files : List Entry) (head : List (List Nat × (Id × Mode)))
    (tracked : List (List Nat × Metadata)) (content : List Nat → List Nat) : Changes :=
  let ch := files.foldl (detectStep head tracked content) ⟨[], []⟩
  head.foldl
    (fun ch kv =>
      if files.any fun e => entryKey e = kv.1 then ch
      else { ch with indexHead := amInsert kv.1 .deleted ch.indexHead })
    ch

/-! ### Myers edit distance (`src/diff.rs`)

The `Ring` vector of length `2 * max + 1`, indexed at `mid + k`, is modelled
as the total map `k ↦ value` (all indices used stay within bounds); `isize`
becomes `Int`.  The `unreachable!()` after the `for d in 0..max` loop is the
`none` result. -/

/-- Point update of the diagonal vector (`v[k] = x`). -/
def vset (v : Int → Int) (k x : Int) : Int → Int :=
  fun j => if j = k then x else v j

/-- The "snake": `while x < n && y < m && a[x] == b[y] { x += 1; y += 1 }`.
The fuel `a.length + 1` passed by the caller always suffices, because each
step requires `x < a.length`. -/
def snake {α : Type} [DecidableEq α] (a b : List α) (fuel : Nat) (x y : Int) : Int × Int :=
  match fuel with
  | 0 => (x, y)
  | fuel + 1 =>
      if x < (a.length : Int) ∧ y < (b.length : Int) ∧ a.get? x.toNat = b.get? y.toNat
      then snake a b fuel (x + 1) (y + 1)
      else (x, y)

/-- The diagonals `-d, -d + 2, …, d` of round `d`. -/
def diagonals (d : Nat) : List Int :=
  (List.range (d + 1)).map fun i => -(d : Int) + 2 * i

/-- The inner `for k` loop of round `d`: compute the new furthest-reaching
`x` on each diagonal, run the snake, store it, and return `d` as soon as
`x >= n && y >= m`. -/
def myersInner {α : Type} [DecidableEq α] (a b : List α) (d : Nat) :
    List Int → (Int → Int) → Sum (Int → Int) Nat
  | [], v => .inl v
  | k :: ks, v =>
      let x := if k = -(d : Int) ∨ (k ≠ (d : Int) ∧ v (k - 1) < v (k + 1))
               then v (k + 1) else v (k - 1) + 1
      let p := snake a b (a.length + 1) x (x - k)
      let v := vset v k p.1
      if (a.length : Int) ≤ p.1 ∧ (b.length : Int) ≤ p.2
      then .inr d
      else myersInner a b d ks v

/-- The outer `for d in 0..max` loop; exhausting the fuel `max = n + m` is
the `unreachable!()` (modelled as `none`). -/
def myersOuter {α : Type} [DecidableEq α] (a b : List α) :
    Nat → Nat → (Int → Int) → Option Nat
  | 0, _, _ => none
  | fuel + 1, d, v =>
      match myersInner a b d (diagonals d) v with
      | .inr d => some d
      | .inl v => myersOuter a b fuel (d + 1) v

/-- `diff::myers` (`src/diff.rs:3`). -/
def myers {α : Type} [DecidableEq α] (a b : List α) : Option Nat :=
  myersOuter a b (a.length + b.length) 0 (fun _ => 0)


/-- The ancestor/descendant invariant of the index map: no entry's path is a
proper `/`-delimited path prefix of another's. -/
def noPrefixPairs (l : List Entry) : Prop :=
  ∀ e1 ∈ l, ∀ e2 ∈ l, ¬ underOf e1.path e2.path

/-- A sequence of `Index::insert` operations applied in order. -/
def applyInserts (ops : List (Metadata × Id × Path)) (idx : Index) : Index :=
  ops.foldl (fun acc op => acc.insertOp op.1 op.2.1 op.2.2) idx

/-- The path `foo`. -/
def pFoo : Path := [[102, 111, 111]]

/-- The byte-prefix sibling path `foo.sh`. -/
def pFooSh : Path := [[102, 111, 111, 46, 115, 104]]

/-- The descendant path `foo/a`. -/
def pFooA : Path := [[102, 111, 111], [97]]

/-- An index tracking `foo.sh` and `foo/a`. -/
def idxFoo : Index :=
  ⟨[Entry.new metaS2 idWorld pFooSh, Entry.new metaS2 idWorld pFooA], false⟩

/-- Insert `foo/a`, then `foo` (which must evict `foo/a`). -/
def opsFoo : List (Metadata × Id × Path) :=
  [(metaS2, idWorld, pFooA), (metaS2, idWorld, pFoo)]

instance (d q : Path) : Decidable (underOf d q) := by
  unfold underOf
  infer_instance

end Grit

open Grit

set_option maxRecDepth 40000 in
/-- C2: `store(o)` returns the id equal to SHA-1 of the canonical byte
sequence `<type> <ascii-decimal-length>\0<body>` (header included), on both
the write path and the already-exists early-return path, for every object and
filesystem; and the blob with content `hello\n` has id
`ce013625030ba8dba906f756967f9e9ca394464a`. -/
theorem c2_store_id_is_sha1_of_canonical :
    (∀ (fs : FS) (o : Object) (suffix : List Nat),
      (Database.store fs o suffix).result
        = Id.hash (o.typeBytes ++ 32 :: decimalBytes o.len ++ 0 :: o.bodyBytes))
    ∧ Id.hash (Object.toBytes (.blob helloBytes))
        = [0xce, 0x01, 0x36, 0x25, 0x03, 0x0b, 0xa8, 0xdb, 0xa9, 0x06,
           0xf7, 0x56, 0x96, 0x7f, 0x9e, 0x9c, 0xa3, 0x94, 0x46, 0x4a] := by
  refine ⟨fun fs o suffix => ?_, by decide⟩
  simp only [Database.store, Object.toBytes]
  split <;> rfl

set_option maxRecDepth 400000 in
/-- C1 (code bug): the object round-trip fails for commits.  Storing the
concrete commit `commitS2` and loading it back by the returned id yields a
parse failure, because `Author::read` pops the `b'<'` delimiter consumed by
`read_until(b'<')` but asserts it equals `b'>'`; indeed `Author::read`
rejects the exact bytes `Author::write` produces. -/
theorem c1_commit_load_store_fails :
    Database.load (Database.store [] (.commit commitS2) tmpSuffix).fs
        (Database.store [] (.commit commitS2) tmpSuffix).result = none
    ∧ Author.read (Author.writeBytes authorS2) = none := by
  constructor
  · decide
  · decide


/-! ### Helper lemmas about the filesystem model -/

theorem fsLookup_fsSet_self (p : List Nat) (d : FileData) (fs : FS) :
    fsLookup p (fsSet p d fs) = some d := by
  induction fs with
  | nil => simp [fsSet, fsLookup]
  | cons e rest ih =>
      obtain ⟨q, v⟩ := e
      by_cases h : q = p <;> simp [fsSet, fsLookup, h, ih]

theorem mem_keys_fsSet (q p : List Nat) (d : FileData) (fs : FS) :
    q ∈ (fsSet p d fs).map Prod.fst → q ∈ fs.map Prod.fst ∨ q = p := by
  induction fs with
  | nil => simp [fsSet]
  | cons e rest ih =>
      obtain ⟨r, v⟩ := e
      by_cases h : r = p
      · simp only [fsSet, h, if_true, eq_self_iff_true, List.map_cons, List.mem_cons]
        tauto
      · simp only [fsSet, h, if_false, List.map_cons, List.mem_cons]
        intro hm
        rcases hm with rfl | hm
        · tauto
        · rcases ih hm with hm | hm <;> tauto

theorem nodup_keys_fsSet (p : List Nat) (d : FileData) (fs : FS) :
    (fs.map Prod.fst).Nodup → ((fsSet p d fs).map Prod.fst).Nodup := by
  induction fs with
  | nil => simp [fsSet]
  | cons e rest ih =>
      obtain ⟨r, v⟩ := e
      intro h
      rw [List.map_cons, List.nodup_cons] at h
      obtain ⟨hq, hrest⟩ := h
      by_cases hqp : r = p
      · simp only [fsSet, hqp, if_true, eq_self_iff_true, List.map_cons, List.nodup_cons]
        exact ⟨hqp ▸ hq, hrest⟩
      · simp only [fsSet, hqp, if_false, List.map_cons, List.nodup_cons]
        refine ⟨fun hmem => ?_, ih hrest⟩
        rcases mem_keys_fsSet r p d rest hmem with hm | hm
        · exact hq hm
        · exact hqp hm

theorem nodup_keys_fsErase (p : List Nat) (fs : FS) :
    (fs.map Prod.fst).Nodup → ((fsErase p fs).map Prod.fst).Nodup := by
  intro h
  exact List.Nodup.sublist ((List.filter_sublist fs).map Prod.fst) h

set_option maxRecDepth 40000 in
/-- C5 (counterexample): `store` does NOT treat an already existing TARGET as
an early-return success.  With the S2 blob already stored at its
content-addressed path (and no temp-name collision), `store` performs its
create/write/rename effects instead of returning the id immediately without
writing: the exclusive create that `Database::store` reacts to is
`file::Temp::new`'s create of the random `tmp_obj_` sibling, not of the
target. -/
theorem c5_store_existing_target_still_writes :
    (fsLookup (Id.hash (Object.toBytes (.blob helloBytes))).toPathBuf fsWithHello).isSome = true
    ∧ (Database.store fsWithHello (.blob helloBytes) tmpSuffix).events ≠ [] := by
  constructor
  · decide
  · decide

/-- C5 (amended): for every filesystem, object and temp-name suffix, `store`
never fails and returns the canonical id; it preserves key uniqueness (so a
repeated store never produces two files for the same id); and either the
random TEMP name already exists — the one `AlreadyExists` treated as success,
returning with no effects — or the target afterwards holds exactly the
zlib-compressed canonical bytes (rewriting it if it already existed). -/
theorem c5_store_dedup_amended (fs : FS) (o : Object) (suffix : List Nat) :
    (Database.store fs o suffix).result = Id.hash o.toBytes
    ∧ ((fs.map Prod.fst).Nodup → ((Database.store fs o suffix).fs.map Prod.fst).Nodup)
    ∧ ((fsLookup (withFileName (Id.hash o.toBytes).toPathBuf (tmpObjPrefix ++ suffix)) fs).isSome
         ∧ (Database.store fs o suffix).events = [] ∧ (Database.store fs o suffix).fs = fs
       ∨ fsLookup (withFileName (Id.hash o.toBytes).toPathBuf (tmpObjPrefix ++ suffix)) fs = none
         ∧ fsLookup (Id.hash o.toBytes).toPathBuf (Database.store fs o suffix).fs
             = some (.zlib o.toBytes)) := by
  simp only [Database.store]
  split
  · next h => exact ⟨rfl, fun hn => hn, .inl ⟨h, rfl, rfl⟩⟩
  · next h =>
      refine ⟨rfl, fun hn => ?_, .inr ⟨Option.not_isSome_iff_eq_none.mp (by simpa using h), ?_⟩⟩
      · exact nodup_keys_fsSet _ _ _ (nodup_keys_fsErase _ _
          (nodup_keys_fsSet _ _ _ (nodup_keys_fsSet _ _ _ hn)))
      · exact fsLookup_fsSet_self _ _ _

set_option maxRecDepth 40000 in
/-- Witness for `c5_store_dedup_amended` at the empty filesystem and the S2
blob. -/
theorem c5_store_dedup_amended_witness :
    (([] : FS).map Prod.fst).Nodup
    ∧ ((Database.store [] (.blob helloBytes) tmpSuffix).fs.map Prod.fst).Nodup :=
  ⟨by decide, (c5_store_dedup_amended [] (.blob helloBytes) tmpSuffix).2.1 (by decide)⟩

/-- C9 (code bug): the `for d in 0..max` loop of `diff::myers` excludes the
round `d = max = n + m`, so inputs whose edit distance is exactly `n + m`
(any two sequences with no common element, in particular two empty sequences)
fall through to `unreachable!()` instead of returning the distance; the claim
`myers(a, a) == 0` fails for the empty sequence.  The model returns the
spec's S7 value `myers("ABCABBA", "CBABAC") == 5` on the source's own test
vector, and `none` (the `unreachable!()` panic) on `([], [])` and on
`("A", "B")`. -/
theorem c9_myers_empty_hits_unreachable :
    myers ([] : List Nat) [] = none
    ∧ myers [65] [66] = none
    ∧ myers [65, 66, 67, 65, 66, 66, 65] [67, 66, 65, 66, 65, 67] = some 5 := by
  refine ⟨by decide, by decide, by decide⟩

/-! ### Byte-order and map lemmas -/

theorem bytesLt_trans {a b c : List Nat} (hab : bytesLt a b = true) (hbc : bytesLt b c = true) :
    bytesLt a c = true := by
  induction a generalizing b c with
  | nil =>
      cases b with
      | nil => simp [bytesLt] at hab
      | cons y ys =>
          cases c with
          | nil => simp [bytesLt] at hbc
          | cons z zs => simp [bytesLt]
  | cons x xs ih =>
      cases b with
      | nil => simp [bytesLt] at hab
      | cons y ys =>
          cases c with
          | nil => simp [bytesLt] at hbc
          | cons z zs =>
              simp only [bytesLt, Bool.or_eq_true, Bool.and_eq_true, decide_eq_true_eq] at *
              rcases hab with h1 | ⟨rfl, h1⟩ <;> rcases hbc with h2 | ⟨rfl, h2⟩
              · exact .inl (h1.trans h2)
              · exact .inl h1
              · exact .inl h2
              · exact .inr ⟨rfl, ih h1 h2⟩

theorem bytesLt_irrefl (a : List Nat) : bytesLt a a = false := by
  induction a with
  | nil => rfl
  | cons x xs ih => simp [bytesLt, ih]

/-- On a sorted list, everything surviving the range scan
`dropWhile (! P < key)` has key strictly above `P`. -/
theorem mem_dropWhile_gt (P : List Nat) (l : List Entry) (hs : sortedKeys l) :
    ∀ e ∈ l.dropWhile (fun e => ! bytesLt P (entryKey e)), bytesLt P (entryKey e) = true := by
  induction l with
  | nil => intro e h; simp [List.dropWhile] at h
  | cons x xs ih =>
      rcases List.pairwise_cons.mp hs with ⟨hx, hxs⟩
      intro e he
      by_cases hPx : bytesLt P (entryKey x) = true
      · rw [List.dropWhile_cons_of_neg (by simp [hPx])] at he
        rcases List.mem_cons.mp he with rfl | he
        · exact hPx
        · exact bytesLt_trans hPx (hx e he)
      · rw [List.dropWhile_cons_of_pos (by simp [hPx])] at he
        exact ih hxs e he

theorem btLookup_btRemove (p q : Path) (m : List Entry) :
    btLookup p (btRemove q m)
      = if pathBytes q = pathBytes p then none else btLookup p m := by
  induction m with
  | nil => simp [btLookup, btRemove]
  | cons x xs ih =>
      by_cases hq : entryKey x = pathBytes q
      · have hxq : ¬ (entryKey x ≠ pathBytes q) := by simpa using hq
        by_cases hqp : pathBytes q = pathBytes p
        · simp only [btRemove, btLookup] at *
          rw [List.filter_cons_of_neg (by simpa using hq)]
          simpa [hqp] using ih
        · simp only [btRemove, btLookup] at *
          rw [List.filter_cons_of_neg (by simpa using hq)]
          rw [if_neg hqp] at ih ⊢
          rw [List.find?_cons_of_neg _ (by simp [hq, hqp])]
          simpa [hqp] using ih
      · simp only [btRemove, btLookup] at *
        rw [List.filter_cons_of_pos (by simpa using hq)]
        by_cases hxp : entryKey x = pathBytes p
        · rw [List.find?_cons_of_pos _ (by simp [hxp]), List.find?_cons_of_pos _ (by simp [hxp])]
          have hqp : ¬ pathBytes q = pathBytes p := fun h => hq (h ▸ hxp)
          simp [hqp]
        · rw [List.find?_cons_of_neg _ (by simp [hxp]), List.find?_cons_of_neg _ (by simp [hxp])]
          exact ih

/-- Removing a batch of keys all different from `p` leaves the lookup of `p`
unchanged. -/
theorem btLookup_foldl_btRemove (p : Path) (keys : List Path) (m : List Entry)
    (h : ∀ q ∈ keys, pathBytes q ≠ pathBytes p) :
    btLookup p (keys.foldl (fun acc q => btRemove q acc) m) = btLookup p m := by
  induction keys generalizing m with
  | nil => rfl
  | cons q qs ih =>
      simp only [List.foldl_cons]
      rw [ih _ fun r hr => h r (List.mem_cons_of_mem _ hr), btLookup_btRemove,
        if_neg (h q (List.mem_cons_self _ _))]

/-! ### Path-byte lemmas -/

theorem pathBytes_cons (c : Comp) (cs : Path) (h : cs ≠ []) :
    pathBytes (c :: cs) = c ++ 47 :: pathBytes cs := by
  cases cs with
  | nil => exact absurd rfl h
  | cons d ds => rfl

/-- Bytes of a nonempty proper component prefix: the whole path's bytes are
those of the prefix, a `/`, and the remainder. -/
theorem pathBytes_take_proper (p : Path) (k : Nat) (h1 : 0 < k) (h2 : k < p.length) :
    ∃ rest, pathBytes p = pathBytes (p.take k) ++ 47 :: rest := by
  induction p generalizing k with
  | nil => simp at h2
  | cons c cs ih =>
      have hcs : cs ≠ [] := by
        intro h
        subst h
        simp at h2
        omega
      rcases Nat.lt_or_ge 1 k with hk | hk
      · have h2' : k - 1 < cs.length := by simp at h2; omega
        obtain ⟨rest, hrest⟩ := ih (k - 1) (by omega) h2'
        refine ⟨rest, ?_⟩
        have htake : (c :: cs).take k = c :: cs.take (k - 1) := by
          cases k with
          | zero => omega
          | succ k0 => simp
        have htakene : cs.take (k - 1) ≠ [] := by
          have hlen : (cs.take (k - 1)).length = k - 1 := by
            rw [List.length_take]
            omega
          intro h
          rw [h] at hlen
          simp at hlen
          omega
        rw [htake, pathBytes_cons c cs hcs, pathBytes_cons c _ htakene, hrest]
        simp
      · have hk1 : k = 1 := by omega
        subst hk1
        refine ⟨pathBytes cs, ?_⟩
        rw [pathBytes_cons c cs hcs]
        simp [pathBytes]

/-- A nonempty proper ancestor has strictly shorter bytes, hence a different
key. -/
theorem pathBytes_take_ne (p : Path) (k : Nat) (h1 : 0 < k) (h2 : k < p.length) :
    pathBytes (p.take k) ≠ pathBytes p := by
  obtain ⟨rest, hrest⟩ := pathBytes_take_proper p k h1 h2
  intro h
  have := congrArg List.length hrest
  rw [← h] at this
  simp at this

/-! ### Sortedness, removal, and the descendants scan -/

theorem sortedKeys_btRemove (q : Path) (m : List Entry) (hs : sortedKeys m) :
    sortedKeys (btRemove q m) :=
  List.Pairwise.sublist (List.filter_sublist m) hs

theorem sortedKeys_foldl_btRemove (keys : List Path) (m : List Entry) (hs : sortedKeys m) :
    sortedKeys (keys.foldl (fun acc q => btRemove q acc) m) := by
  induction keys generalizing m with
  | nil => exact hs
  | cons q qs ih => exact ih _ (sortedKeys_btRemove q m hs)

/-- Every path returned by the descendants scan of a sorted map has key
strictly above `p`, in particular a different key. -/
theorem descendants_key_gt (p : Path) (m : List Entry) (hs : sortedKeys m) :
    ∀ d ∈ Index.descendants p m, bytesLt (pathBytes p) (pathBytes d) = true := by
  intro d hd
  unfold Index.descendants at hd
  rcases List.mem_map.mp hd with ⟨e, he, rfl⟩
  have h1 : e ∈ (m.dropWhile fun e => ! bytesLt (pathBytes p) (entryKey e)) :=
    (List.dropWhile_sublist _).subset ((List.takeWhile_sublist _).subset he)
  exact mem_dropWhile_gt (pathBytes p) m hs e h1

theorem descendants_key_ne (p : Path) (m : List Entry) (hs : sortedKeys m) :
    ∀ d ∈ Index.descendants p m, pathBytes d ≠ pathBytes p := by
  intro d hd h
  have := descendants_key_gt p m hs d hd
  rw [h] at this
  rw [bytesLt_irrefl] at this
  cases this

/-- Every nonempty proper ancestor produced by
`ancestors().skip(1).take_while(!= "")` has a key different from `p`. -/
theorem ancestors_key_ne (p : Path) :
    ∀ q ∈ (properAncestors p).takeWhile (fun a => decide (a ≠ [])),
      pathBytes q ≠ pathBytes p := by
  intro q hq
  have hmem : q ∈ properAncestors p := (List.takeWhile_sublist _).subset hq
  have hne : q ≠ [] := by simpa using List.mem_takeWhile_imp hq
  unfold properAncestors at hmem
  rcases List.mem_map.mp hmem with ⟨i, hi, rfl⟩
  rw [List.mem_range] at hi
  have hk0 : 0 < p.length - 1 - i := by
    by_contra h
    push_neg at h
    interval_cases h0 : p.length - 1 - i
    · simp at hne
  exact pathBytes_take_ne p _ hk0 (by omega)

/-- C4 (amended): re-inserting at an already-present path never marks the
index changed, so the following `commit` leaves the on-disk index untouched
(`add` on an already-tracked, modified file does NOT update the on-disk
index; membership alone drives the `changed` flag). -/
theorem c4_insert_replacement_not_persisted (idx : Index) (meta : Metadata) (id : Id) (p : Path)
    (hs : sortedKeys idx.entries) (hch : idx.changed = false)
    (hmem : (btLookup p idx.entries).isSome = true) :
    (idx.insertOp meta id p).changed = false
    ∧ ∀ disk, (idx.insertOp meta id p).commitOp disk = disk := by
  have hAncSorted : sortedKeys (((properAncestors p).takeWhile fun a => decide (a ≠ [])).foldl
      (fun m a => btRemove a m) idx.entries) :=
    sortedKeys_foldl_btRemove _ _ hs
  have hprev :
      btLookup p ((Index.descendants p (((properAncestors p).takeWhile fun a => decide (a ≠ [])).foldl
          (fun m a => btRemove a m) idx.entries)).foldl (fun m d => btRemove d m)
        (((properAncestors p).takeWhile fun a => decide (a ≠ [])).foldl
          (fun m a => btRemove a m) idx.entries))
        = btLookup p idx.entries := by
    rw [btLookup_foldl_btRemove _ _ _ (descendants_key_ne p _ hAncSorted),
      btLookup_foldl_btRemove _ _ _ (ancestors_key_ne p)]
  have hchanged : (idx.insertOp meta id p).changed = false := by
    simp only [Index.insertOp, hprev, hch, Bool.false_or]
    rw [Option.isSome_iff_exists] at hmem
    obtain ⟨e, he⟩ := hmem
    simp [he]
  refine ⟨hchanged, fun disk => ?_⟩
  simp [Index.commitOp, hchanged]

/-- Witness for `c4_insert_replacement_not_persisted`: the opened S2 index
already tracks `hello.txt`; re-adding it with the `world\n` blob id leaves
`changed` clear and `commit` rewrites nothing. -/
theorem c4_insert_replacement_not_persisted_witness :
    (sortedKeys [entryS2] ∧ (Index.mk [entryS2] false).changed = false
      ∧ (btLookup pHello [entryS2]).isSome = true)
    ∧ ((Index.mk [entryS2] false).insertOp metaS2 idWorld pHello).changed = false :=
  ⟨⟨by decide, rfl, by decide⟩,
    (c4_insert_replacement_not_persisted ⟨[entryS2], false⟩ metaS2 idWorld pHello
      (by decide) rfl (by decide)).1⟩

set_option maxRecDepth 1000000 in
/-- C4 (counterexample): open the committed S2 index (which tracks
`hello.txt` at the `hello\n` blob id), insert the same path with the
different `world\n` blob id, commit, and re-open: the entry still carries the
ORIGINAL id, not the new one — the claim that the replacement is persisted
fails on this input. -/
theorem c4_reopen_yields_old_id :
    (match Index.lockFromDisk (some diskS2) with
     | .ok idx =>
         match Index.lockFromDisk ((idx.insertOp metaS2 idWorld pHello).commitOp (some diskS2)) with
         | .ok idx2 => (btLookup pHello idx2.entries).map Entry.id
         | _ => none
     | _ => none)
      = some (Id.hash (Object.toBytes (.blob helloBytes)))
    ∧ Id.hash (Object.toBytes (.blob helloBytes)) ≠ idWorld := by
  constructor
  · decide
  · decide

/-! ### C6: corrupting a committed index file -/

theorem word32Bytes_length (w : Nat) : (word32Bytes w).length = 4 := by
  simp [word32Bytes]

theorem sha1_length (msg : List Nat) : (sha1 msg).length = 20 := by
  simp [sha1, word32Bytes]

theorem drop_set_of_lt {α} (l : List α) (i j : Nat) (v : α) (h : i < j) :
    (l.set i v).drop j = l.drop j := by
  induction l generalizing i j with
  | nil => simp
  | cons x xs ih =>
      cases i with
      | zero =>
          cases j with
          | zero => omega
          | succ j0 => simp [List.set]
      | succ i0 =>
          cases j with
          | zero => omega
          | succ j0 => simpa [List.set] using ih i0 j0 (by omega)

theorem indexFile_trailer (entries : List Entry) :
    (indexFileBytes entries).drop ((indexFileBytes entries).length - 20)
      = sha1 ((indexFileBytes entries).take ((indexFileBytes entries).length - 20)) := by
  simp only [indexFileBytes]
  set body := [68, 73, 82, 67] ++ word32Bytes 2 ++ word32Bytes entries.length
    ++ entries.flatMap Entry.writeBytes with hbody
  have hlen : (body ++ sha1 body).length - 20 = body.length := by
    simp [sha1_length]
  rw [hlen]
  rw [List.drop_left, List.take_left]

/-- C6 (amended): flipping any byte of a committed index file strictly
before the 20-byte trailer never yields a successfully opened index,
PROVIDED the SHA-1 of the modified prefix differs from that of the original
prefix (SHA-1 collision-freeness, unprovable for the concrete function but
discharged by computation at every witness).  The open instead fails — bad
signature/version, entry parse error, or the failing checksum `assert_eq!` —
or, for corruptions that drive the path reader past end of input
(see `c6_flip_padding_byte_hangs`), loops forever. -/
theorem c6_flipped_index_never_opens (entries : List Entry) (i v : Nat)
    (hlt : i < (indexFileBytes entries).length - 20)
    (hflip : (indexFileBytes entries).getD i 0 ≠ v)
    (hsha : sha1 (((indexFileBytes entries).set i v).take ((indexFileBytes entries).length - 20))
        ≠ sha1 ((indexFileBytes entries).take ((indexFileBytes entries).length - 20))) :
    ∀ idx, Index.lockFromDisk (some ((indexFileBytes entries).set i v)) ≠ .ok idx := by
  intro idx h
  have hlenset : ((indexFileBytes entries).set i v).length = (indexFileBytes entries).length :=
    List.length_set _ _ _
  simp only [Index.lockFromDisk] at h
  cases hr : Index.read ((indexFileBytes entries).set i v) with
  | error => simp only [hr] at h; cases h
  | hang => simp only [hr] at h; cases h
  | ok es =>
      simp only [hr] at h
      by_cases hc : sha1 (((indexFileBytes entries).set i v).take
          (((indexFileBytes entries).set i v).length - 20))
          = ((indexFileBytes entries).set i v).drop
            (((indexFileBytes entries).set i v).length - 20)
      · have hdropeq : ((indexFileBytes entries).set i v).drop
            (((indexFileBytes entries).set i v).length - 20)
            = (indexFileBytes entries).drop ((indexFileBytes entries).length - 20) := by
          rw [hlenset]
          exact drop_set_of_lt _ i _ v hlt
        rw [hdropeq, indexFile_trailer] at hc
        rw [hlenset] at hc
        exact hsha hc
      · rw [if_neg hc] at h
        exact absurd h (by simp)

set_option maxRecDepth 1000000 in
/-- Witness for `c6_flipped_index_never_opens`: flip byte 83 (the padding
byte of the single entry) of the committed S2 index to 1. -/
theorem c6_flipped_index_never_opens_witness :
    (83 < diskS2.length - 20 ∧ diskS2.getD 83 0 ≠ 1
      ∧ sha1 ((diskS2.set 83 1).take (diskS2.length - 20))
          ≠ sha1 (diskS2.take (diskS2.length - 20)))
    ∧ Index.lockFromDisk (some (diskS2.set 83 1)) ≠ .ok ⟨[], false⟩ :=
  ⟨⟨by decide, by decide, by decide⟩,
    c6_flipped_index_never_opens [entryS2] 83 1 (by decide) (by decide) (by decide) ⟨[], false⟩⟩

set_option maxRecDepth 1000000 in
/-- C6 (counterexample): the claim says every such flip makes the next open
FAIL with a Corrupt error.  Flipping the entry-padding byte 83 of the
committed S2 index to a nonzero value instead makes `Entry::read`'s path
loop run past the end of the buffer, where `take(8).read_to_end` returns 0
bytes forever: the open diverges (`.hang`), it does not fail. -/
theorem c6_flip_padding_byte_hangs :
    Index.lockFromDisk (some (diskS2.set 83 1)) = .hang
    ∧ diskS2.getD 83 0 = 0 ∧ 83 < diskS2.length - 20 := by
  refine ⟨by decide, by decide, by decide⟩

/-! ### C8: metadata shortcut with content-hash fallback -/

theorem amLookup_amInsert_ne {α : Type} (K k : List Nat) (v : α) (m : List (List Nat × α))
    (h : k ≠ K) : amLookup K (amInsert k v m) = amLookup K m := by
  induction m with
  | nil => simp [amInsert, amLookup, h]
  | cons e rest ih =>
      obtain ⟨q, w⟩ := e
      by_cases hq : q = k
      · subst hq
        simp [amInsert, amLookup, h]
      · simp only [amInsert, if_neg hq, amLookup]
        by_cases hqK : q = K <;> simp [hqK, ih]

theorem detectStep_ws_other (head : List (List Nat × (Id × Mode)))
    (tracked : List (List Nat × Metadata)) (content : List Nat → List Nat)
    (ch : Changes) (f : Entry) (K : List Nat) (h : entryKey f ≠ K) :
    amLookup K (detectStep head tracked content ch f).workspaceIndex
      = amLookup K ch.workspaceIndex := by
  unfold detectStep
  repeat' split
  all_goals dsimp only []
  all_goals first
    | rfl
    | exact amLookup_amInsert_ne _ _ _ _ h

theorem detectStep_ws_self (head : List (List Nat × (Id × Mode)))
    (tracked : List (List Nat × Metadata)) (content : List Nat → List Nat)
    (ch : Changes) (e : Entry) (md : Metadata)
    (hmd : amLookup (entryKey e) tracked = some md)
    (hmode : md.mode = e.metadata.mode) (hsize : md.size = e.metadata.size)
    (hhash : Id.hash (Object.toBytes (.blob (content (entryKey e)))) = e.id) :
    (detectStep head tracked content ch e).workspaceIndex = ch.workspaceIndex := by
  have h1 : ¬(md.mode ≠ e.metadata.mode ∨ md.size ≠ e.metadata.size) := by
    simp [hmode, hsize]
  have h2 : ¬(Id.hash (Object.toBytes (.blob (content (entryKey e)))) ≠ e.id) := by
    simp [hhash]
  unfold detectStep
  rcases hh : amLookup (entryKey e) head with _ | ⟨hid, hmode2⟩ <;>
    simp only [hh, hmd, h1, h2, if_false] <;> (repeat' split) <;> rfl

theorem foldl_detectStep_ws (head : List (List Nat × (Id × Mode)))
    (tracked : List (List Nat × Metadata)) (content : List Nat → List Nat)
    (K : List Nat) (fs : List Entry) (ch : Changes)
    (h : ∀ f ∈ fs, entryKey f ≠ K) :
    amLookup K (fs.foldl (detectStep head tracked content) ch).workspaceIndex
      = amLookup K ch.workspaceIndex := by
  induction fs generalizing ch with
  | nil => rfl
  | cons f fs ih =>
      rw [List.foldl_cons, ih _ fun g hg => h g (List.mem_cons_of_mem _ hg),
        detectStep_ws_other _ _ _ _ _ _ (h f (List.mem_cons_self _ _))]

theorem headFold_ws (files : List Entry) (head : List (List Nat × (Id × Mode))) (ch : Changes) :
    (head.foldl
      (fun ch kv =>
        if files.any fun e => entryKey e = kv.1 then ch
        else { ch with indexHead := amInsert kv.1 .deleted ch.indexHead })
      ch).workspaceIndex = ch.workspaceIndex := by
  induction head generalizing ch with
  | nil => rfl
  | cons kv rest ih =>
      rw [List.foldl_cons, ih]
      split <;> rfl

/-- C8: a tracked file whose recorded mode and size match the working file
and whose current content hashes (as a blob) to the stored id produces no
`work_vs_index` change, whatever its mtime/ctime (and the rest of its stat)
are: `detect_changes` consults only mode, size and the content hash. -/
theorem c8_unchanged_content_no_workspace_change
    (files : List Entry) (head : List (List Nat × (Id × Mode)))
    (tracked : List (List Nat × Metadata)) (content : List Nat → List Nat)
    (e : Entry) (md : Metadata)
    (hmem : e ∈ files) (hnodup : (files.map entryKey).Nodup)
    (hmd : amLookup (entryKey e) tracked = some md)
    (hmode : md.mode = e.metadata.mode) (hsize : md.size = e.metadata.size)
    (hhash : Id.hash (Object.toBytes (.blob (content (entryKey e)))) = e.id) :
    amLookup (entryKey e) (detectChanges files head tracked content).workspaceIndex = none := by
  obtain ⟨l₁, l₂, rfl⟩ := List.append_of_mem hmem
  have hkeys : (l₁.map entryKey ++ entryKey e :: l₂.map entryKey).Nodup := by
    simpa using hnodup
  rw [List.nodup_append] at hkeys
  obtain ⟨hn1, hn2, hdisj⟩ := hkeys
  have hK1 : ∀ f ∈ l₁, entryKey f ≠ entryKey e := fun f hf heq =>
    hdisj (List.mem_map.mpr ⟨f, hf, rfl⟩) (heq ▸ List.mem_cons_self _ _)
  have hK2 : ∀ f ∈ l₂, entryKey f ≠ entryKey e := fun f hf heq => by
    rcases List.nodup_cons.mp hn2 with ⟨hni, _⟩
    exact hni (heq ▸ List.mem_map.mpr ⟨f, hf, rfl⟩)
  unfold detectChanges
  rw [headFold_ws, List.foldl_append, List.foldl_cons,
    foldl_detectStep_ws _ _ _ _ _ _ hK2,
    detectStep_ws_self _ _ _ _ _ md hmd hmode hsize hhash,
    foldl_detectStep_ws _ _ _ _ _ _ hK1]
  rfl

set_option maxRecDepth 100000 in
/-- Witness for `c8_unchanged_content_no_workspace_change`: the S2 index
entry with a touched (mtime-only) stat in the working tree and unchanged
content `hello\n`. -/
theorem c8_unchanged_content_no_workspace_change_witness :
    (entryS2 ∈ [entryS2] ∧ ([entryS2].map entryKey).Nodup
      ∧ amLookup (entryKey entryS2) [(entryKey entryS2, metaTouched)] = some metaTouched
      ∧ metaTouched.mode = entryS2.metadata.mode
      ∧ metaTouched.size = entryS2.metadata.size
      ∧ Id.hash (Object.toBytes (.blob helloBytes)) = entryS2.id)
    ∧ amLookup (entryKey entryS2)
        (detectChanges [entryS2] [] [(entryKey entryS2, metaTouched)]
          (fun _ => helloBytes)).workspaceIndex = none :=
  ⟨⟨List.mem_cons_self _ _, by decide, by decide, by decide, by decide, by decide⟩,
    c8_unchanged_content_no_workspace_change [entryS2] [] [(entryKey entryS2, metaTouched)]
      (fun _ => helloBytes) entryS2 metaTouched (List.mem_cons_self _ _) (by decide)
      (by decide) (by decide) (by decide) (by decide)⟩

/-! ### C7: the iterator refines the spec description -/

theorem properAncestors_length (p : Path) : (properAncestors p).length = p.length := by
  simp [properAncestors]

theorem gapDirs_none (p : Path) : gapDirs p none = properAncestors p := by
  simp [gapDirs]

theorem gapDirs_length_le (p : Path) (next : Option Entry) :
    (gapDirs p next).length ≤ p.length := by
  calc (gapDirs p next).length ≤ (properAncestors p).length :=
        (List.takeWhile_sublist _).length_le
    _ = p.length := properAncestors_length p

theorem takeWhile_eq_filter_of_pairwise {α : Type} (l : List α) (p : α → Bool)
    (h : l.Pairwise fun a b => p a = false → p b = false) :
    l.takeWhile p = l.filter p := by
  induction l with
  | nil => rfl
  | cons x xs ih =>
      rcases List.pairwise_cons.mp h with ⟨hx, hxs⟩
      by_cases hp : p x = true
      · rw [List.takeWhile_cons_of_pos hp, List.filter_cons_of_pos hp, ih hxs]
      · rw [Bool.not_eq_true] at hp
        rw [List.takeWhile_cons_of_neg (by simp [hp]), List.filter_cons_of_neg (by simp [hp])]
        refine (List.filter_eq_nil.mpr fun b hb => ?_).symm
        simp [hx b hb hp]

theorem properAncestors_pairwise_pre (p : Path) :
    (properAncestors p).Pairwise fun a b => b <+: a := by
  unfold properAncestors
  rw [List.pairwise_map]
  refine List.Pairwise.imp_of_mem ?_ (List.pairwise_lt_range p.length)
  intro i j hi hj hij
  exact List.take_isPrefix_take.mpr (.inl (by omega))

theorem gapDirs_eq (pp : Path) (n : Entry) : gapDirs pp (some n) = gapDirsSpec pp n.path := by
  unfold gapDirs gapDirsSpec
  refine takeWhile_eq_filter_of_pairwise _ _ ?_
  refine (properAncestors_pairwise_pre pp).imp_of_mem ?_
  intro a b ha hb hba hfa
  simp only [Bool.not_eq_false', decide_eq_true_eq] at hfa ⊢
  exact hba.trans hfa

theorem tailSeqGo_eq_tailSeq (prev : Entry) (iter : List Entry) :
    tailSeqGo prev iter = tailSeq prev iter := by
  induction iter generalizing prev with
  | nil => rfl
  | cons n rest ih => rw [tailSeqGo, tailSeq, gapDirs_eq, ih]

theorem runGo_master (fuel : Nat) : ∀ st : IterSt, IterSt.measure st ≤ fuel →
    Iter.runGo fuel st = st.queue.map .directory ++ bodyGo st.state st.iter := by
  induction fuel with
  | zero =>
      rintro ⟨iter, state, queue⟩ hm
      simp only [IterSt.measure] at hm
      have hq : queue = [] := by
        cases queue with
        | nil => rfl
        | cons d q => simp only [List.length_cons] at hm; omega
      have hst : state = none := by
        cases state with
        | none => rfl
        | some is => cases is <;> (simp only [] at hm; omega)
      subst hq hst
      rfl
  | succ fuel ih =>
      rintro ⟨iter, state, queue⟩ hm
      cases queue with
      | cons d q =>
          have hm' : IterSt.measure ⟨iter, state, q⟩ ≤ fuel := by
            simp only [IterSt.measure, List.length_cons] at hm ⊢
            omega
          simp only [Iter.runGo, Iter.next, Iter.nextGo]
          rw [ih _ hm']
          rfl
      | nil =>
          cases state with
          | none => rfl
          | some is =>
              cases is with
              | yieldE e =>
                  have hm' : IterSt.measure ⟨iter, some (.yielded e), []⟩ ≤ fuel := by
                    simp only [IterSt.measure, List.length_nil] at hm ⊢
                    omega
                  simp only [Iter.runGo, Iter.next, Iter.nextGo]
                  rw [ih _ hm']
                  rfl
              | yielded prev =>
                  cases iter with
                  | nil =>
                      cases hgap : properAncestors prev.path with
                      | nil =>
                          simp only [Iter.runGo, Iter.next, Iter.nextGo, List.tail_nil,
                            List.head?_nil, Option.map_none', gapDirs_none, hgap]
                          simp [bodyGo, tailSeqGo, hgap]
                      | cons d q =>
                          have hlen : q.length + 1 = prev.path.length := by
                            have := properAncestors_length prev.path
                            rw [hgap] at this
                            simpa using this
                          have hm' : IterSt.measure ⟨[], none, q⟩ ≤ fuel := by
                            simp only [IterSt.measure, List.length_nil, List.map_nil,
                              List.sum_nil] at hm ⊢
                            omega
                          simp only [Iter.runGo, Iter.next, Iter.nextGo, List.tail_nil,
                            List.head?_nil, Option.map_none', gapDirs_none, hgap]
                          rw [ih _ hm']
                          simp [bodyGo, tailSeqGo, hgap]
                  | cons n t =>
                      cases hgap : gapDirs prev.path (some n) with
                      | nil =>
                          have hm' : IterSt.measure ⟨t, some (.yielded n), []⟩ ≤ fuel := by
                            simp only [IterSt.measure, List.length_nil, List.map_cons,
                              List.sum_cons] at hm ⊢
                            omega
                          simp only [Iter.runGo, Iter.next, Iter.nextGo, List.tail_cons,
                            List.head?_cons, Option.map_some', hgap]
                          rw [ih _ hm']
                          simp [bodyGo, tailSeqGo, hgap]
                      | cons d q =>
                          have hlenq : q.length + 1 ≤ prev.path.length := by
                            have := gapDirs_length_le prev.path (some n)
                            rw [hgap] at this
                            simpa using this
                          have hm' : IterSt.measure ⟨t, some (.yieldE n), q⟩ ≤ fuel := by
                            simp only [IterSt.measure, List.length_nil, List.length_cons,
                              List.map_cons, List.sum_cons] at hm ⊢
                            omega
                          simp only [Iter.runGo, Iter.next, Iter.nextGo, List.tail_cons,
                            List.head?_cons, Option.map_some', hgap]
                          rw [ih _ hm']
                          simp [bodyGo, tailSeqGo, hgap]

theorem iterRun_eq_iterSpec (entries : List Entry) : Iter.run entries = iterSpec entries := by
  cases entries with
  | nil => rfl
  | cons e es =>
      unfold Iter.run Iter.init
      rw [runGo_master _ _ (le_refl _)]
      simp only [List.tail_cons, List.head?_cons, Option.map_some', bodyGo, List.map_nil,
        List.nil_append, iterSpec]
      rw [tailSeqGo_eq_tailSeq]

-- prefix antisymmetry availability
theorem isPrefix_antisymm {a b : List Nat} (h1 : a <+: b) (h2 : b <+: a) : a = b :=
  h1.eq_of_length (Nat.le_antisymm h1.length_le h2.length_le)

theorem pathBytes_append (xs ys : Path) (hx : xs ≠ []) (hy : ys ≠ []) :
    pathBytes (xs ++ ys) = pathBytes xs ++ 47 :: pathBytes ys := by
  induction xs with
  | nil => exact absurd rfl hx
  | cons c cs ih =>
      cases cs with
      | nil =>
          simp only [List.nil_append, List.cons_append]
          rw [pathBytes_cons c ys hy]
          rfl
      | cons d ds =>
          have hne : (d :: ds) ++ ys ≠ [] := by simp
          rw [List.cons_append, pathBytes_cons c _ hne, pathBytes_cons c _ (by simp),
            ih (by simp) ]
          simp

theorem compPrefix_bytes (a q : Path) (ha : a ≠ []) (hpre : a <+: q) (hne : a ≠ q) :
    pathBytes a ++ [47] <+: pathBytes q := by
  obtain ⟨s, rfl⟩ := hpre
  have hs : s ≠ [] := by
    intro h
    subst h
    simp at hne
  rw [pathBytes_append a s ha hs]
  exact ⟨pathBytes s, by simp⟩

theorem slash_free_cancel (c d X Y : List Nat) (hc : 47 ∉ c) (hd : 47 ∉ d)
    (h : c ++ 47 :: X = d ++ 47 :: Y) : c = d ∧ X = Y := by
  induction c generalizing d with
  | nil =>
      cases d with
      | nil => simpa using h
      | cons x d' =>
          simp only [List.nil_append, List.cons_append, List.cons.injEq] at h
          exact absurd (show (47 : Nat) ∈ x :: d' from h.1 ▸ List.mem_cons_self _ _) hd
  | cons x c' ih =>
      cases d with
      | nil =>
          simp only [List.cons_append, List.nil_append, List.cons.injEq] at h
          exact absurd (show (47 : Nat) ∈ x :: c' from h.1 ▸ List.mem_cons_self _ _) hc
      | cons y d' =>
          simp only [List.cons_append, List.cons.injEq] at h
          obtain ⟨rfl, h2⟩ := h
          obtain ⟨rfl, rfl⟩ := ih d' (fun hm => hc (List.mem_cons_of_mem _ hm))
            (fun hm => hd (List.mem_cons_of_mem _ hm)) h2
          exact ⟨rfl, rfl⟩

theorem bytes_compPrefix (a q : Path) (hva : ∀ c ∈ a, ValidComp c) (hvq : ∀ c ∈ q, ValidComp c)
    (h : pathBytes a ++ [47] <+: pathBytes q) : a <+: q := by
  induction a generalizing q with
  | nil => exact ⟨q, rfl⟩
  | cons c a' ih =>
      obtain ⟨t, ht⟩ := h
      rw [List.append_assoc] at ht
      simp only [List.cons_append, List.nil_append] at ht
      have hc47 : 47 ∉ c := (hva c (List.mem_cons_self _ _)).2.1
      cases q with
      | nil =>
          have := congrArg List.length ht
          simp only [pathBytes, List.length_append, List.length_cons, List.length_nil] at this
          omega
      | cons d q' =>
          have hd47 : 47 ∉ d := (hvq d (List.mem_cons_self _ _)).2.1
          cases q' with
          | nil =>
              exfalso
              apply hd47
              cases a' with
              | nil =>
                  simp only [pathBytes] at ht
                  rw [← ht]
                  simp
              | cons b a'' =>
                  rw [pathBytes_cons c (b :: a'') (by simp)] at ht
                  simp only [pathBytes] at ht
                  rw [← ht]
                  simp
          | cons e q'' =>
              rw [pathBytes_cons d (e :: q'') (by simp)] at ht
              cases a' with
              | nil =>
                  simp only [pathBytes] at ht
                  obtain ⟨rfl, ht2⟩ := slash_free_cancel c d t (pathBytes (e :: q'')) hc47 hd47 ht
                  exact ⟨e :: q'', rfl⟩
              | cons b a'' =>
                  rw [pathBytes_cons c (b :: a'') (by simp), List.append_assoc,
                    List.cons_append] at ht
                  obtain ⟨rfl, ht2⟩ := slash_free_cancel c d _ _ hc47 hd47 ht
                  have hpre : pathBytes (b :: a'') ++ [47] <+: pathBytes (e :: q'') := by
                    refine ⟨t, ?_⟩
                    rw [List.append_assoc]
                    simpa using ht2
                  have := ih (e :: q'') (fun x hx => hva x (List.mem_cons_of_mem _ hx))
                    (fun x hx => hvq x (List.mem_cons_of_mem _ hx)) hpre
                  exact List.cons_prefix_cons.mpr ⟨rfl, this⟩

theorem bytesLe_trans {x y z : List Nat} (h1 : bytesLt x y = true ∨ x = y)
    (h2 : bytesLt y z = true ∨ y = z) : bytesLt x z = true ∨ x = z := by
  rcases h1 with h1 | rfl
  · rcases h2 with h2 | rfl
    · exact .inl (bytesLt_trans h1 h2)
    · exact .inl h1
  · exact h2

theorem bytes_between (P x y z : List Nat)
    (hx : P <+: x) (hz : P <+: z)
    (hxy : bytesLt x y = true ∨ x = y) (hyz : bytesLt y z = true ∨ y = z) :
    P <+: y := by
  induction P generalizing x y z with
  | nil => exact ⟨y, rfl⟩
  | cons p P' ih =>
      obtain ⟨xs, rfl⟩ := hx
      obtain ⟨zs, rfl⟩ := hz
      cases y with
      | nil =>
          rcases hxy with hxy | hxy
          · simp [bytesLt] at hxy
          · simp at hxy
      | cons y0 y' =>
          simp only [List.cons_append] at hxy hyz
          have hxy' : p < y0 ∨ (p = y0 ∧ (bytesLt (P' ++ xs) y' = true ∨ P' ++ xs = y')) := by
            rcases hxy with hxy | hxy
            · simp only [bytesLt, Bool.or_eq_true, Bool.and_eq_true, decide_eq_true_eq] at hxy
              rcases hxy with h | ⟨he, hr⟩
              · exact .inl h
              · exact .inr ⟨he, .inl hr⟩
            · rcases List.cons.injEq .. ▸ hxy with ⟨he, hr⟩
              exact .inr ⟨he, .inr hr⟩
          have hyz' : y0 < p ∨ (y0 = p ∧ (bytesLt y' (P' ++ zs) = true ∨ y' = P' ++ zs)) := by
            rcases hyz with hyz | hyz
            · simp only [bytesLt, Bool.or_eq_true, Bool.and_eq_true, decide_eq_true_eq] at hyz
              rcases hyz with h | ⟨he, hr⟩
              · exact .inl h
              · exact .inr ⟨he, .inl hr⟩
            · rcases List.cons.injEq .. ▸ hyz with ⟨he, hr⟩
              exact .inr ⟨he, .inr hr⟩
          rcases hxy' with h1 | ⟨rfl, h1⟩
          · rcases hyz' with h2 | ⟨rfl, h2⟩
            · omega
            · omega
          · have := ih (P' ++ xs) y' (P' ++ zs) ⟨xs, rfl⟩ ⟨zs, rfl⟩ h1 (by
              rcases hyz' with h2 | ⟨he, h2⟩
              · omega
              · exact h2)
            exact List.cons_prefix_cons.mpr ⟨rfl, this⟩

theorem mem_properAncestors {a p : Path} (h : a ∈ properAncestors p) :
    ∃ k, k < p.length ∧ a = p.take k := by
  unfold properAncestors at h
  rcases List.mem_map.mp h with ⟨i, hi, rfl⟩
  rw [List.mem_range] at hi
  exact ⟨p.length - 1 - i, by omega, rfl⟩

theorem properAncestors_proper {a p : Path} (h : a ∈ properAncestors p) :
    a <+: p ∧ a ≠ p := by
  obtain ⟨k, hk, rfl⟩ := mem_properAncestors h
  refine ⟨List.take_prefix _ _, fun he => ?_⟩
  have := congrArg List.length he
  simp only [List.length_take] at this
  omega

theorem validComp_of_mem_properAncestors {a p : Path} (hv : ∀ c ∈ p, ValidComp c)
    (h : a ∈ properAncestors p) : ∀ c ∈ a, ValidComp c := by
  obtain ⟨k, hk, rfl⟩ := mem_properAncestors h
  exact fun c hc => hv c (List.take_subset _ _ hc)

theorem mem_gapDirsSpec {a : Path} {pp nb : Path} (h : a ∈ gapDirsSpec pp nb) :
    a ∈ properAncestors pp ∧ ¬(a <+: nb) := by
  unfold gapDirsSpec at h
  have h1 := List.mem_of_mem_filter h
  have h2 := List.of_mem_filter h
  simp only [Bool.not_eq_true', decide_eq_false_iff_not] at h2
  exact ⟨h1, h2⟩

theorem tailSeq_paths (es : List Entry) : ∀ (prev : Entry), ∀ y ∈ tailSeq prev es,
    ∃ f ∈ prev :: es, y.path <+: f.path := by
  induction es with
  | nil =>
      intro prev y hy
      rw [tailSeq] at hy
      rcases List.mem_map.mp hy with ⟨a, ha, rfl⟩
      exact ⟨prev, List.mem_cons_self _ _, (properAncestors_proper ha).1⟩
  | cons n rest ih =>
      intro prev y hy
      rw [tailSeq] at hy
      rcases List.mem_append.mp hy with hy | hy
      · rcases List.mem_map.mp hy with ⟨a, ha, rfl⟩
        exact ⟨prev, List.mem_cons_self _ _,
          (properAncestors_proper (mem_gapDirsSpec ha).1).1⟩
      · rcases List.mem_cons.mp hy with rfl | hy
        · exact ⟨n, List.mem_cons_of_mem _ (List.mem_cons_self _ _), List.prefix_refl _⟩
        · obtain ⟨f, hf, hyf⟩ := ih n y hy
          exact ⟨f, List.mem_cons_of_mem _ hf, hyf⟩

theorem gap_dir_not_above (a : Path) (prev n f : Entry) (y : Path)
    (ha : a ∈ gapDirsSpec prev.path n.path)
    (hvprev : ∀ c ∈ prev.path, ValidComp c) (hvn : ∀ c ∈ n.path, ValidComp c)
    (hsort1 : bytesLt (entryKey prev) (entryKey n) = true)
    (hsort2 : bytesLt (entryKey n) (entryKey f) = true ∨ entryKey n = entryKey f)
    (hyf : y <+: f.path)
    (hu : underOf a y) : False := by
  obtain ⟨hmem, hnot⟩ := mem_gapDirsSpec ha
  obtain ⟨hpre, hne⟩ := properAncestors_proper hmem
  have hane : a ≠ [] := fun he => hnot (he ▸ ⟨n.path, rfl⟩)
  have hayf : a <+: f.path := hu.1.trans hyf
  have haf_ne : a ≠ f.path := by
    intro he
    have h1 := hu.1.length_le
    have h2 := hyf.length_le
    have h3 : a.length < y.length := by
      rcases Nat.lt_or_ge a.length y.length with h | h
      · exact h
      · exact absurd (hu.1.eq_of_length (Nat.le_antisymm h1 h)) hu.2
    rw [he] at h3
    omega
  have h1 : pathBytes a ++ [47] <+: entryKey prev := compPrefix_bytes a _ hane hpre hne
  have h2 : pathBytes a ++ [47] <+: entryKey f := compPrefix_bytes a _ hane hayf haf_ne
  have h3 : pathBytes a ++ [47] <+: entryKey n :=
    bytes_between _ (entryKey prev) (entryKey n) (entryKey f) h1 h2 (.inl hsort1) hsort2
  exact hnot (bytes_compPrefix a n.path (validComp_of_mem_properAncestors hvprev hmem) hvn h3)

theorem nodeOk_file (e : Entry) (y : Node) : nodeOk (.file e) y := by
  intro d hd
  cases hd

theorem pairwise_nodeOk_of_sublist_anc (l : List Path) (p : Path)
    (hsub : List.Sublist l (properAncestors p)) : (l.map Node.directory).Pairwise nodeOk := by
  rw [List.pairwise_map]
  refine ((properAncestors_pairwise_pre p).sublist hsub).imp ?_
  intro a b hba
  intro d hd hu
  injection hd with heq
  subst heq
  exact hu.2 (hu.1.eq_of_length (Nat.le_antisymm hu.1.length_le hba.length_le))

theorem tailSeq_pairwise (es : List Entry) : ∀ (prev : Entry),
    ((prev :: es).Pairwise fun a b => bytesLt (entryKey a) (entryKey b) = true) →
    (∀ f ∈ prev :: es, ValidPath f.path) →
    (tailSeq prev es).Pairwise nodeOk := by
  induction es with
  | nil =>
      intro prev _ _
      exact pairwise_nodeOk_of_sublist_anc _ prev.path (List.Sublist.refl _)
  | cons n rest ih =>
      intro prev hsort hvalid
      rw [tailSeq, List.pairwise_append]
      rcases List.pairwise_cons.mp hsort with ⟨hprevlt, hsorttail⟩
      refine ⟨pairwise_nodeOk_of_sublist_anc _ prev.path (List.filter_sublist _), ?_, ?_⟩
      · rw [List.pairwise_cons]
        exact ⟨fun y _ => nodeOk_file n y,
          ih n hsorttail (fun f hf => hvalid f (List.mem_cons_of_mem _ hf))⟩
      · intro x hx y hy
        rcases List.mem_map.mp hx with ⟨a, ha, rfl⟩
        intro d hd2 hu
        injection hd2 with heq
        subst heq
        rcases List.mem_cons.mp hy with rfl | hy2
        · exact (mem_gapDirsSpec ha).2 hu.1
        · obtain ⟨f, hf, hyf⟩ := tailSeq_paths rest n y hy2
          have hsort2 : bytesLt (entryKey n) (entryKey f) = true ∨ entryKey n = entryKey f := by
            rcases List.mem_cons.mp hf with rfl | hf2
            · exact .inr rfl
            · exact .inl ((List.pairwise_cons.mp hsorttail).1 f hf2)
          exact gap_dir_not_above _ prev n f y.path ha
            (hvalid prev (List.mem_cons_self _ _)).2
            (hvalid n (List.mem_cons_of_mem _ (List.mem_cons_self _ _))).2
            (hprevlt n (List.mem_cons_self _ _)) hsort2 hyf hu

theorem iterSpec_pairwise (entries : List Entry) (hs : sortedKeys entries)
    (hv : ∀ f ∈ entries, ValidPath f.path) : (iterSpec entries).Pairwise nodeOk := by
  cases entries with
  | nil => exact List.Pairwise.nil
  | cons e es =>
      rw [iterSpec, List.pairwise_cons]
      exact ⟨fun y _ => nodeOk_file e y, tailSeq_pairwise es e hs hv⟩

/-- C7: the tree iterator is the claimed post-order walk.  Its node sequence
equals, for every entry list, the spec shape `iterSpec`: each file in map
order and, between successive files `A` and `B`, EXACTLY the proper
ancestors of `A` that are not ancestors of `B`, deepest first
(`gapDirsSpec`), with all remaining ancestors of the last file down to the
root `[]` at the end; moreover, over a sorted map of well-formed paths,
every directory is yielded only after all of its descendants (no node
strictly below a directory ever follows it). -/
theorem c7_iterator_postorder (entries : List Entry) :
    Iter.run entries = iterSpec entries
    ∧ (sortedKeys entries → (∀ f ∈ entries, ValidPath f.path) →
        (Iter.run entries).Pairwise nodeOk) :=
  ⟨iterRun_eq_iterSpec entries,
    fun hs hv => (iterRun_eq_iterSpec entries) ▸ iterSpec_pairwise entries hs hv⟩

/-- Witness for `c7_iterator_postorder` on the sorted entries
`4`, `a/b/1`, `a/d/2`. -/
theorem c7_iterator_postorder_witness :
    (sortedKeys [entryC4txt, entryAB1, entryAD2]
      ∧ ∀ f ∈ [entryC4txt, entryAB1, entryAD2], ValidPath f.path)
    ∧ (Iter.run [entryC4txt, entryAB1, entryAD2]).Pairwise nodeOk :=
  ⟨⟨by decide, by decide⟩,
    (c7_iterator_postorder [entryC4txt, entryAB1, entryAD2]).2 (by decide) (by decide)⟩

/-- C10: on an empty index the tree-assembly walk sees no nodes at all
(`Iter.run [] = []`), so `Commit::run` aborts via the
`expect("[INTERNAL ERROR]: index must contain at least root directory")`
panic before storing any tree or commit object and before writing HEAD: the
object store and HEAD come back unchanged. -/
theorem c10_empty_index_commit_aborts (db : FS) (head : Option Id)
    (suffix : Nat → List Nat) (csuffix : List Nat) (author : Author) (message : List Nat) :
    Iter.run ([] : List Entry) = []
    ∧ Commit.runCommand [] db head suffix csuffix author message
        = ⟨.error "index must contain at least root directory", db, head⟩ :=
  ⟨rfl, rfl⟩

/-! ### C3: map operations, byte order, and path injectivity -/

theorem pathBytes_inj {a b : Path} (hva : ∀ c ∈ a, ValidComp c) (hvb : ∀ c ∈ b, ValidComp c)
    (h : pathBytes a = pathBytes b) : a = b := by
  induction a generalizing b with
  | nil =>
      cases b with
      | nil => rfl
      | cons d b' =>
          exfalso
          have hd := hvb d (List.mem_cons_self _ _)
          cases b' with
          | nil => exact hd.1 (by simpa [pathBytes] using h.symm)
          | cons e b'' =>
              rw [pathBytes_cons d _ (by simp)] at h
              simp only [pathBytes] at h
              cases d with
              | nil => exact hd.1 rfl
              | cons x d' => simp at h
  | cons c a' ih =>
      cases b with
      | nil =>
          exfalso
          have hc := hva c (List.mem_cons_self _ _)
          cases a' with
          | nil => exact hc.1 (by simpa [pathBytes] using h)
          | cons e a'' =>
              rw [pathBytes_cons c _ (by simp)] at h
              simp only [pathBytes] at h
              cases c with
              | nil => exact hc.1 rfl
              | cons x c' => simp at h
      | cons d b' =>
          have hc47 : 47 ∉ c := (hva c (List.mem_cons_self _ _)).2.1
          have hd47 : 47 ∉ d := (hvb d (List.mem_cons_self _ _)).2.1
          cases a' with
          | nil =>
              cases b' with
              | nil => simpa [pathBytes] using h
              | cons e b'' =>
                  exfalso
                  rw [pathBytes_cons d _ (by simp)] at h
                  simp only [pathBytes] at h
                  exact hc47 (h ▸ List.mem_append_right d (List.mem_cons_self _ _))
          | cons e a'' =>
              cases b' with
              | nil =>
                  exfalso
                  rw [pathBytes_cons c _ (by simp)] at h
                  simp only [pathBytes] at h
                  exact hd47 (h ▸ List.mem_append_right c (List.mem_cons_self _ _))
              | cons f b'' =>
                  rw [pathBytes_cons c _ (by simp), pathBytes_cons d _ (by simp)] at h
                  obtain ⟨rfl, h2⟩ := slash_free_cancel c d _ _ hc47 hd47 h
                  rw [ih (fun x hx => hva x (List.mem_cons_of_mem _ hx))
                    (fun x hx => hvb x (List.mem_cons_of_mem _ hx)) h2]

theorem bytesLt_total (a b : List Nat) :
    a = b ∨ bytesLt a b = true ∨ bytesLt b a = true := by
  induction a generalizing b with
  | nil =>
      cases b with
      | nil => exact .inl rfl
      | cons y ys => exact .inr (.inl (by simp [bytesLt]))
  | cons x xs ih =>
      cases b with
      | nil => exact .inr (.inr (by simp [bytesLt]))
      | cons y ys =>
          rcases Nat.lt_trichotomy x y with h | rfl | h
          · exact .inr (.inl (by simp [bytesLt, h]))
          · rcases ih ys with rfl | h | h
            · exact .inl rfl
            · exact .inr (.inl (by simp [bytesLt, h]))
            · exact .inr (.inr (by simp [bytesLt, h]))
          · exact .inr (.inr (by simp [bytesLt, h]))

theorem bytesLt_append (a : List Nat) (c : Nat) (t : List Nat) :
    bytesLt a (a ++ c :: t) = true := by
  induction a with
  | nil => simp [bytesLt]
  | cons x xs ih => simpa [bytesLt] using ih

theorem mem_btInsert {x e : Entry} {l : List Entry} (h : x ∈ btInsert e l) :
    x = e ∨ x ∈ l := by
  induction l with
  | nil => simpa [btInsert] using h
  | cons y ys ih =>
      unfold btInsert at h
      split at h
      · rcases List.mem_cons.mp h with rfl | h
        · exact .inl rfl
        · exact .inr (List.mem_cons_of_mem _ h)
      · split at h
        · rcases List.mem_cons.mp h with rfl | h
          · exact .inl rfl
          · exact .inr h
        · rcases List.mem_cons.mp h with rfl | h
          · exact .inr (List.mem_cons_self _ _)
          · rcases ih h with h | h
            · exact .inl h
            · exact .inr (List.mem_cons_of_mem _ h)

theorem btLookup_btInsert (e : Entry) (l : List Entry) (q : Path) :
    btLookup q (btInsert e l)
      = if entryKey e = pathBytes q then some e else btLookup q l := by
  induction l with
  | nil =>
      by_cases hq : entryKey e = pathBytes q <;> simp [btInsert, btLookup, List.find?, hq]
  | cons y ys ih =>
      unfold btInsert
      by_cases hk : entryKey e = entryKey y
      · rw [if_pos hk]
        by_cases hq : entryKey e = pathBytes q
        · simp [btLookup, List.find?, hq]
        · have hyq : ¬ entryKey y = pathBytes q := fun h => hq (hk.trans h)
          simp [btLookup, List.find?, hq, hyq]
      · rw [if_neg hk]
        by_cases hlt : bytesLt (entryKey e) (entryKey y) = true
        · rw [if_pos hlt]
          by_cases hq : entryKey e = pathBytes q <;> simp [btLookup, List.find?, hq]
        · rw [if_neg hlt]
          by_cases hyq : entryKey y = pathBytes q
          · have hq : ¬ entryKey e = pathBytes q := fun h => hk (h.trans hyq.symm)
            simp [btLookup, List.find?, hyq, hq]
          · simp only [btLookup] at ih ⊢
            rw [List.find?_cons_of_neg _ (by simp [hyq]), ih]
            by_cases hq : entryKey e = pathBytes q
            · simp [hq]
            · rw [if_neg hq, if_neg hq, List.find?_cons_of_neg _ (by simp [hyq])]

theorem sortedKeys_btInsert (e : Entry) (l : List Entry) (hs : sortedKeys l) :
    sortedKeys (btInsert e l) := by
  induction l with
  | nil => simp [btInsert, sortedKeys]
  | cons y ys ih =>
      rcases List.pairwise_cons.mp hs with ⟨hy, hys⟩
      unfold btInsert
      by_cases hk : entryKey e = entryKey y
      · rw [if_pos hk]
        exact List.pairwise_cons.mpr ⟨fun z hz => hk ▸ hy z hz, hys⟩
      · rw [if_neg hk]
        by_cases hlt : bytesLt (entryKey e) (entryKey y) = true
        · rw [if_pos hlt]
          refine List.pairwise_cons.mpr ⟨?_, hs⟩
          intro z hz
          rcases List.mem_cons.mp hz with rfl | hz
          · exact hlt
          · exact bytesLt_trans hlt (hy z hz)
        · rw [if_neg hlt]
          have hyl : bytesLt (entryKey y) (entryKey e) = true := by
            rcases bytesLt_total (entryKey e) (entryKey y) with h | h | h
            · exact absurd h hk
            · exact absurd h hlt
            · exact h
          refine List.pairwise_cons.mpr ⟨?_, ih hys⟩
          intro z hz
          rcases mem_btInsert hz with rfl | hz
          · exact hyl
          · exact hy z hz

theorem btLookup_self_of_mem {e : Entry} {l : List Entry} (hs : sortedKeys l) (hm : e ∈ l) :
    btLookup e.path l = some e := by
  induction l with
  | nil => cases hm
  | cons y ys ih =>
      rcases List.pairwise_cons.mp hs with ⟨hy, hys⟩
      rcases List.mem_cons.mp hm with rfl | hm
      · simp [btLookup, List.find?, entryKey]
      · have hne : entryKey y ≠ pathBytes e.path := by
          intro h
          have := hy e hm
          rw [show entryKey e = pathBytes e.path from rfl] at this
          rw [h] at this
          rw [bytesLt_irrefl] at this
          cases this
        simp only [btLookup] at ih ⊢
        rw [List.find?_cons_of_neg _ (by simp [hne])]
        exact ih hys hm

theorem btLookup_none_btRemove {q : Path} {m : List Entry} (r : Path)
    (h : btLookup q m = none) : btLookup q (btRemove r m) = none := by
  induction m with
  | nil => rfl
  | cons y ys ih =>
      simp only [btLookup, btRemove] at h ⊢
      by_cases hy : entryKey y = pathBytes q
      · rw [List.find?_cons_of_pos _ (by simp [hy])] at h
        cases h
      · rw [List.find?_cons_of_neg _ (by simp [hy])] at h
        by_cases hr : entryKey y ≠ pathBytes r
        · rw [List.filter_cons_of_pos (by simpa using hr),
            List.find?_cons_of_neg _ (by simp [hy])]
          exact ih h
        · rw [List.filter_cons_of_neg (by simpa using hr)]
          exact ih h

theorem btLookup_btRemove_none {q r : Path} {m : List Entry}
    (h : pathBytes r = pathBytes q) : btLookup q (btRemove r m) = none := by
  induction m with
  | nil => rfl
  | cons y ys ih =>
      simp only [btLookup, btRemove] at ih ⊢
      by_cases hy : entryKey y = pathBytes r
      · rw [List.filter_cons_of_neg (by simpa using hy)]
        exact ih
      · rw [List.filter_cons_of_pos (by simpa using hy),
          List.find?_cons_of_neg _ (by simp [show entryKey y ≠ pathBytes q from h ▸ hy])]
        exact ih

theorem btLookup_foldl_none_preserved {q : Path} (keys : List Path) (m : List Entry)
    (h : btLookup q m = none) :
    btLookup q (keys.foldl (fun acc k => btRemove k acc) m) = none := by
  induction keys generalizing m with
  | nil => exact h
  | cons a as ih =>
      simp only [List.foldl_cons]
      exact ih _ (btLookup_none_btRemove a h)

theorem btLookup_foldl_btRemove_none {q : Path} (keys : List Path) (m : List Entry)
    (h : ∃ d ∈ keys, pathBytes d = pathBytes q) :
    btLookup q (keys.foldl (fun acc k => btRemove k acc) m) = none := by
  induction keys generalizing m with
  | nil => rcases h with ⟨d, hd, _⟩; cases hd
  | cons k ks ih =>
      rcases h with ⟨d, hd, hdq⟩
      rcases List.mem_cons.mp hd with rfl | hd
      · simp only [List.foldl_cons]
        exact btLookup_foldl_none_preserved ks _ (btLookup_btRemove_none hdq)
      · simp only [List.foldl_cons]
        exact ih _ ⟨d, hd, hdq⟩

/-! ### C3: the insert ancestor/descendant invariant -/

theorem dropWhile_eq_filter_sorted (P : List Nat) (m : List Entry) (hs : sortedKeys m) :
    m.dropWhile (fun e => ! bytesLt P (entryKey e))
      = m.filter (fun e => bytesLt P (entryKey e)) := by
  induction m with
  | nil => rfl
  | cons x xs ih =>
      rcases List.pairwise_cons.mp hs with ⟨hx, hxs⟩
      by_cases hPx : bytesLt P (entryKey x) = true
      · rw [List.dropWhile_cons_of_neg (by simp [hPx]), List.filter_cons_of_pos (by simp [hPx])]
        congr 1
        symm
        rw [List.filter_eq_self]
        intro e he
        simpa using bytesLt_trans hPx (hx e he)
      · rw [List.dropWhile_cons_of_pos (by simp [hPx]), List.filter_cons_of_neg (by simp [hPx])]
        exact ih hxs

theorem takeWhile_append_of_all {α : Type} (t : α → Bool) (l₂ l₃ : List α)
    (h : ∀ e ∈ l₂, t e = true) :
    (l₂ ++ l₃).takeWhile t = l₂ ++ l₃.takeWhile t := by
  induction l₂ with
  | nil => rfl
  | cons x xs ih =>
      rw [List.cons_append, List.takeWhile_cons_of_pos (h x (List.mem_cons_self _ _)),
        ih fun e he => h e (List.mem_cons_of_mem _ he)]
      rfl

theorem takeWhile_eq_nil_of_mem {α : Type} (t : α → Bool) (l : List α) (sup : List α)
    (hsub : ∀ e ∈ l, e ∈ sup) (h : ∀ e ∈ sup, t e = false) : l.takeWhile t = [] := by
  cases l with
  | nil => rfl
  | cons x xs => exact List.takeWhile_cons_of_neg (by simp [h x (hsub x (List.mem_cons_self _ _))])

theorem skipWhile_takeWhile_middle {α : Type} (s t : α → Bool) (l₁ l₂ l₃ : List α)
    (h₁ : ∀ e ∈ l₁, s e = true) (h₂ : ∀ e ∈ l₂, t e = true ∧ s e = false)
    (h₃ : ∀ e ∈ l₃, t e = false) :
    ((l₁ ++ l₂ ++ l₃).dropWhile s).takeWhile t = l₂ := by
  induction l₁ with
  | cons x xs ih =>
      simp only [List.cons_append]
      rw [List.dropWhile_cons_of_pos (h₁ x (List.mem_cons_self _ _))]
      simpa using ih fun e he => h₁ e (List.mem_cons_of_mem _ he)
  | nil =>
      rw [List.nil_append]
      cases l₂ with
      | nil =>
          rw [List.nil_append]
          refine takeWhile_eq_nil_of_mem t _ l₃ (fun e he => (List.dropWhile_sublist s).subset he) h₃
      | cons h2 l₂' =>
          simp only [List.cons_append]
          rw [List.dropWhile_cons_of_neg (by simp [(h₂ h2 (List.mem_cons_self _ _)).2])]
          rw [List.takeWhile_cons_of_pos (h₂ h2 (List.mem_cons_self _ _)).1]
          rw [takeWhile_append_of_all t l₂' l₃ (fun e he => (h₂ e (List.mem_cons_of_mem _ he)).1)]
          rw [takeWhile_eq_nil_of_mem t l₃ l₃ (fun e he => he) h₃, List.append_nil]

theorem filter_eq_nil_of_all_false {α : Type} (q : α → Bool) (l : List α)
    (h : ∀ e ∈ l, q e = false) : l.filter q = [] := by
  induction l with
  | nil => rfl
  | cons x xs ih =>
      rw [List.filter_cons_of_neg (by simp [h x (List.mem_cons_self _ _)])]
      exact ih fun e he => h e (List.mem_cons_of_mem _ he)

theorem bnot_true {b : Bool} (h : (!b) = true) : b = false := by
  cases b
  · rfl
  · exact Bool.noConfusion h

theorem dropWhile_head_false {α : Type} (q : α → Bool) (l : List α) :
    l.dropWhile q = [] ∨ ∃ x xs, l.dropWhile q = x :: xs ∧ q x = false := by
  induction l with
  | nil => exact .inl rfl
  | cons a as ih =>
      by_cases hq : q a = true
      · rw [List.dropWhile_cons_of_pos hq]
        exact ih
      · rw [List.dropWhile_cons_of_neg hq]
        exact .inr ⟨a, as, rfl, by simpa using hq⟩

theorem pairwise_takeWhile_dropWhile {α : Type} {R : α → α → Prop} {l : List α}
    (h : l.Pairwise R) (q : α → Bool) :
    ∀ x ∈ l.takeWhile q, ∀ y ∈ l.dropWhile q, R x y := by
  intro x hx y hy
  have hsplit : (l.takeWhile q ++ l.dropWhile q).Pairwise R := by
    rw [List.takeWhile_append_dropWhile]
    exact h
  exact (List.pairwise_append.mp hsplit).2.2 x hx y hy

theorem under_key_gt {p q : Path} (hp : ValidPath p)
    (h : underOf p q) : bytesLt (pathBytes p) (pathBytes q) = true := by
  obtain ⟨t, ht⟩ := compPrefix_bytes p q hp.1 h.1 h.2
  have hq : pathBytes q = pathBytes p ++ 47 :: t := by
    rw [← ht]
    simp
  rw [hq]
  exact bytesLt_append _ _ _

set_option maxHeartbeats 1000000 in
theorem scan_eq_filter_aux (p : Path) (m L1 : List Entry)
    (hL1s : sortedKeys L1)
    (hgt : ∀ e ∈ L1, bytesLt (pathBytes p) (entryKey e) = true)
    (hsub : ∀ e ∈ L1, e ∈ m)
    (hp : ValidPath p) (hv : ∀ e ∈ m, ValidPath e.path) :
    ((L1.dropWhile fun e => (pathBytes p).isPrefixOf (entryKey e) && ! decide (p <+: e.path)).takeWhile
        fun e => decide (p <+: e.path))
      = L1.filter fun e => decide (p <+: e.path) := by
  have hneL1 : ∀ e ∈ L1, e.path ≠ p := by
    intro e he hep
    have hb := hgt e he
    simp only [entryKey, hep, bytesLt_irrefl] at hb
    exact Bool.noConfusion hb
  have hunder : ∀ e ∈ L1, decide (p <+: e.path) = true →
      (pathBytes p ++ [47]) <+: entryKey e := by
    intro e he hd
    exact compPrefix_bytes p e.path hp.1 (of_decide_eq_true hd) (Ne.symm (hneL1 e he))
  by_cases hall : ∀ e ∈ L1, decide (p <+: e.path) = false
  · rw [filter_eq_nil_of_all_false _ _ hall]
    exact takeWhile_eq_nil_of_mem _ _ L1
      (fun e he => (List.dropWhile_sublist _).subset he) hall
  · push_neg at hall
    obtain ⟨z, hzmem, hzt'⟩ := hall
    have hzt : decide (p <+: z.path) = true := by
      cases hde : decide (p <+: z.path)
      · exact absurd hde hzt'
      · rfl
    have hpwL1 : L1.Pairwise (fun a b => bytesLt (entryKey a) (entryKey b) = true) := hL1s
    have hzM : z ∈ L1.dropWhile fun e => ! decide (p <+: e.path) := by
      have hzm2 := hzmem
      rw [← List.takeWhile_append_dropWhile (fun e => ! decide (p <+: e.path)) L1] at hzm2
      rcases List.mem_append.mp hzm2 with h | h
      · have hcontra := List.mem_takeWhile_imp h
        rw [hzt] at hcontra
        exact Bool.noConfusion hcontra
      · exact h
    have hpwM : (L1.dropWhile fun e => ! decide (p <+: e.path)).Pairwise
        (fun a b => bytesLt (entryKey a) (entryKey b) = true) :=
      List.Pairwise.sublist (List.dropWhile_sublist _) hpwL1
    have hMsubL1 : ∀ x ∈ L1.dropWhile fun e => ! decide (p <+: e.path), x ∈ L1 :=
      fun x hx => (List.dropWhile_sublist _).subset hx
    have h₁ : ∀ e ∈ L1.takeWhile fun e => ! decide (p <+: e.path),
        ((pathBytes p).isPrefixOf (entryKey e) && ! decide (p <+: e.path)) = true := by
      intro e he
      have hbn0 := List.mem_takeWhile_imp he
      have hbn : (! decide (p <+: e.path)) = true := hbn0
      have heL1 : e ∈ L1 := (List.takeWhile_sublist _).subset he
      have hlt : bytesLt (entryKey e) (entryKey z) = true :=
        pairwise_takeWhile_dropWhile hpwL1 _ e he z hzM
      have hPz : pathBytes p <+: entryKey z :=
        (List.prefix_append _ _).trans (hunder z hzmem hzt)
      have hPe : pathBytes p <+: entryKey e :=
        bytes_between (pathBytes p) (pathBytes p) (entryKey e) (entryKey z)
          (List.prefix_refl _) hPz (.inl (hgt e heL1)) (.inl hlt)
      rw [Bool.and_eq_true]
      exact ⟨List.isPrefixOf_iff_prefix.mpr hPe, hbn⟩
    have h₂ : ∀ e ∈ (L1.dropWhile fun e => ! decide (p <+: e.path)).takeWhile
        fun e => decide (p <+: e.path),
        decide (p <+: e.path) = true
          ∧ ((pathBytes p).isPrefixOf (entryKey e) && ! decide (p <+: e.path)) = false := by
      intro e he
      have ht0 := List.mem_takeWhile_imp he
      have ht : decide (p <+: e.path) = true := ht0
      refine ⟨ht, ?_⟩
      rw [ht]
      simp
    have h₃ : ∀ e ∈ ((L1.dropWhile fun e => ! decide (p <+: e.path)).dropWhile
        fun e => decide (p <+: e.path)), decide (p <+: e.path) = false := by
      intro e he
      rcases dropWhile_head_false (fun e => decide (p <+: e.path))
          (L1.dropWhile fun e => ! decide (p <+: e.path)) with hnil | ⟨h0, hs0, hl3, hth⟩
      · rw [hnil] at he
        cases he
      · rw [hl3] at he
        rcases List.mem_cons.mp he with rfl | hetail
        · exact hth
        · by_contra hcon
          have het : decide (p <+: e.path) = true := by
            cases hde : decide (p <+: e.path)
            · exact absurd hde hcon
            · rfl
          rcases dropWhile_head_false (fun e => ! decide (p <+: e.path)) L1 with
            hMnil | ⟨w, ws, hMw, hbw⟩
          · rw [hMnil] at hzM
            cases hzM
          · have hwt : decide (p <+: w.path) = true := by
              cases hde : decide (p <+: w.path)
              · rw [hde] at hbw
                exact Bool.noConfusion hbw
              · rfl
            have hcons : (List.takeWhile (fun e => decide (p <+: e.path)) (w :: ws))
                = w :: List.takeWhile (fun e => decide (p <+: e.path)) ws :=
              List.takeWhile_cons_of_pos hwt
            have hwl2 : w ∈ (L1.dropWhile fun e => ! decide (p <+: e.path)).takeWhile
                fun e => decide (p <+: e.path) := by
              rw [hMw, hcons]
              exact List.mem_cons_self _ _
            have hwM : w ∈ L1.dropWhile fun e => ! decide (p <+: e.path) := by
              rw [hMw]
              exact List.mem_cons_self _ _
            have hh0l3 : h0 ∈ (L1.dropWhile fun e => ! decide (p <+: e.path)).dropWhile
                fun e => decide (p <+: e.path) := by
              rw [hl3]
              exact List.mem_cons_self _ _
            have hh0M : h0 ∈ L1.dropWhile fun e => ! decide (p <+: e.path) :=
              (List.dropWhile_sublist _).subset hh0l3
            have hel3 : e ∈ (L1.dropWhile fun e => ! decide (p <+: e.path)).dropWhile
                fun e => decide (p <+: e.path) := by
              rw [hl3]
              exact he
            have hwh : bytesLt (entryKey w) (entryKey h0) = true :=
              pairwise_takeWhile_dropWhile hpwM _ w hwl2 h0 hh0l3
            have hpwl3 : (((L1.dropWhile fun e => ! decide (p <+: e.path)).dropWhile
                fun e => decide (p <+: e.path))).Pairwise
                (fun a b => bytesLt (entryKey a) (entryKey b) = true) :=
              List.Pairwise.sublist (List.dropWhile_sublist _) hpwM
            have hhe : bytesLt (entryKey h0) (entryKey e) = true := by
              rw [hl3] at hpwl3
              exact (List.pairwise_cons.mp hpwl3).1 e hetail
            have hwb : (pathBytes p ++ [47]) <+: entryKey w :=
              hunder w (hMsubL1 w hwM) hwt
            have heM : e ∈ L1.dropWhile fun e => ! decide (p <+: e.path) :=
              (List.dropWhile_sublist _).subset hel3
            have heb : (pathBytes p ++ [47]) <+: entryKey e :=
              hunder e (hMsubL1 e heM) het
            have hh0b : (pathBytes p ++ [47]) <+: entryKey h0 :=
              bytes_between _ _ _ _ hwb heb (.inl hwh) (.inl hhe)
            have hh0pre : p <+: h0.path :=
              bytes_compPrefix p h0.path hp.2 ((hv h0 (hsub h0 (hMsubL1 h0 hh0M))).2) hh0b
            rw [decide_eq_true hh0pre] at hth
            exact Bool.noConfusion hth
    have hsplit : L1 = (L1.takeWhile fun e => ! decide (p <+: e.path))
        ++ ((L1.dropWhile fun e => ! decide (p <+: e.path)).takeWhile fun e => decide (p <+: e.path))
        ++ ((L1.dropWhile fun e => ! decide (p <+: e.path)).dropWhile fun e => decide (p <+: e.path)) := by
      rw [List.append_assoc, List.takeWhile_append_dropWhile, List.takeWhile_append_dropWhile]
    have hmid := skipWhile_takeWhile_middle
      (fun e => (pathBytes p).isPrefixOf (entryKey e) && ! decide (p <+: e.path))
      (fun e => decide (p <+: e.path)) _ _ _ h₁ h₂ h₃
    have hfilter : (L1.filter fun e => decide (p <+: e.path))
        = (L1.dropWhile fun e => ! decide (p <+: e.path)).takeWhile
            fun e => decide (p <+: e.path) := by
      conv_lhs => rw [hsplit]
      rw [List.filter_append, List.filter_append]
      rw [filter_eq_nil_of_all_false (fun e => decide (p <+: e.path))
        (L1.takeWhile fun e => ! decide (p <+: e.path))
        (fun e he => by
          have h0 := List.mem_takeWhile_imp he
          exact bnot_true h0)]
      rw [List.filter_eq_self.mpr (fun e he => (h₂ e he).1)]
      rw [filter_eq_nil_of_all_false _ _ h₃]
      simp
    rw [hfilter]
    conv_lhs => rw [hsplit]
    exact hmid

theorem descendants_eq_filter (p : Path) (m : List Entry) (hs : sortedKeys m)
    (hp : ValidPath p) (hv : ∀ e ∈ m, ValidPath e.path) :
    Index.descendants p m
      = (m.filter fun e => decide (p <+: e.path) && ! decide (e.path = p)).map Entry.path := by
  unfold Index.descendants
  rw [dropWhile_eq_filter_sorted (pathBytes p) m hs]
  rw [scan_eq_filter_aux p m (m.filter fun e => bytesLt (pathBytes p) (entryKey e))
    (List.Pairwise.sublist (List.filter_sublist m) hs)
    (fun e he => by simpa using (List.mem_filter.mp he).2)
    (fun e he => (List.mem_filter.mp he).1) hp hv]
  congr 1
  rw [List.filter_filter]
  refine List.filter_congr ?_
  intro e he
  by_cases hpre : p <+: e.path
  · by_cases hep : e.path = p
    · simp [hep, entryKey, bytesLt_irrefl, hpre]
    · have hu : underOf p e.path := ⟨hpre, fun h => hep h.symm⟩
      have hk := under_key_gt hp hu
      simp [entryKey, hk, hpre, hep]
  · simp [hpre]

theorem mem_foldl_btRemove {x : Entry} (keys : List Path) (m : List Entry)
    (h : x ∈ keys.foldl (fun acc q => btRemove q acc) m) : x ∈ m := by
  induction keys generalizing m with
  | nil => exact h
  | cons k ks ih =>
      have hx := ih (btRemove k m) h
      simp only [btRemove, List.mem_filter] at hx
      exact hx.1

theorem take_mem_properAncestors {p : Path} {k : Nat} (hk : k < p.length) :
    p.take k ∈ properAncestors p := by
  unfold properAncestors
  refine List.mem_map.mpr ⟨p.length - 1 - k, List.mem_range.mpr (by omega), ?_⟩
  congr 1
  omega

theorem ancestorKeys_takeWhile_eq_filter (p : Path) :
    (properAncestors p).takeWhile (fun a => decide (a ≠ []))
      = (properAncestors p).filter (fun a => decide (a ≠ [])) := by
  refine takeWhile_eq_filter_of_pairwise _ _ ?_
  refine List.Pairwise.imp ?_ (properAncestors_pairwise_pre p)
  intro a b hba hfa
  simp only [decide_eq_false_iff_not, not_not] at hfa ⊢
  subst hfa
  exact List.prefix_nil.mp hba

theorem mem_ancestorKeys {a p : Path} :
    a ∈ (properAncestors p).takeWhile (fun q => decide (q ≠ []))
      ↔ (a <+: p ∧ a ≠ p ∧ a ≠ []) := by
  rw [ancestorKeys_takeWhile_eq_filter, List.mem_filter]
  constructor
  · rintro ⟨hm, hne⟩
    obtain ⟨hpre, hnep⟩ := properAncestors_proper hm
    exact ⟨hpre, hnep, by simpa using hne⟩
  · rintro ⟨hpre, hnep, hne⟩
    have hlen : a.length < p.length := by
      rcases Nat.lt_or_ge a.length p.length with h | h
      · exact h
      · exact absurd (hpre.eq_of_length (Nat.le_antisymm hpre.length_le h)) hnep
    have hq : a = p.take a.length := List.prefix_iff_eq_take.mp hpre
    refine ⟨?_, by simpa using hne⟩
    rw [hq]
    exact take_mem_properAncestors hlen

theorem ancFold_lookup (p q : Path) (m : List Entry) (hq : ValidPath q)
    (hvp : ∀ c ∈ p, ValidComp c) :
    btLookup q (((properAncestors p).takeWhile fun a => decide (a ≠ [])).foldl
        (fun acc a => btRemove a acc) m)
      = if underOf q p then none else btLookup q m := by
  by_cases hu : underOf q p
  · rw [if_pos hu]
    exact btLookup_foldl_btRemove_none _ _ ⟨q, mem_ancestorKeys.mpr ⟨hu.1, hu.2, hq.1⟩, rfl⟩
  · rw [if_neg hu]
    refine btLookup_foldl_btRemove q _ m ?_
    intro a ha hab
    obtain ⟨hpre, hnep, hne⟩ := mem_ancestorKeys.mp ha
    have haq : a = q := pathBytes_inj (fun c hc => hvp c (hpre.subset hc)) hq.2 hab
    subst haq
    exact hu ⟨hpre, hnep⟩

theorem descFold_lookup (p q : Path) (m : List Entry) (hs : sortedKeys m)
    (hp : ValidPath p) (hq : ValidPath q) (hv : ∀ e ∈ m, ValidPath e.path) :
    btLookup q ((Index.descendants p m).foldl (fun acc d => btRemove d acc) m)
      = if underOf p q then none else btLookup q m := by
  by_cases hu : underOf p q
  · rw [if_pos hu]
    by_cases hlq : btLookup q m = none
    · exact btLookup_foldl_none_preserved _ _ hlq
    · obtain ⟨e, he⟩ := Option.ne_none_iff_exists'.mp hlq
      have heMem : e ∈ m := by
        unfold btLookup at he
        exact List.mem_of_find?_eq_some he
      have heKey : entryKey e = pathBytes q := by
        unfold btLookup at he
        have := List.find?_some he
        simpa using this
      have hepath : e.path = q := pathBytes_inj ((hv e heMem).2) hq.2 heKey
      have hfilter : e ∈ m.filter fun e => decide (p <+: e.path) && ! decide (e.path = p) := by
        rw [List.mem_filter]
        refine ⟨heMem, ?_⟩
        rw [hepath]
        simp only [Bool.and_eq_true, decide_eq_true_eq, Bool.not_eq_true',
          decide_eq_false_iff_not]
        exact ⟨hu.1, fun h => hu.2 h.symm⟩
      have hqdesc : q ∈ Index.descendants p m := by
        rw [descendants_eq_filter p m hs hp hv]
        rw [← hepath]
        exact List.mem_map_of_mem Entry.path hfilter
      exact btLookup_foldl_btRemove_none _ _ ⟨q, hqdesc, rfl⟩
  · rw [if_neg hu]
    refine btLookup_foldl_btRemove q _ m ?_
    intro d hd hdb
    rw [descendants_eq_filter p m hs hp hv] at hd
    rcases List.mem_map.mp hd with ⟨e, hem, rfl⟩
    rcases List.mem_filter.mp hem with ⟨heMem, hpred⟩
    simp only [Bool.and_eq_true, decide_eq_true_eq, Bool.not_eq_true',
      decide_eq_false_iff_not] at hpred
    have hdq : e.path = q := pathBytes_inj ((hv e heMem).2) hq.2 hdb
    subst hdq
    exact hu ⟨hpred.1, fun h => hpred.2 h.symm⟩

set_option maxHeartbeats 1000000 in
theorem insertOp_lookup (idx : Index) (meta : Metadata) (id : Id) (p q : Path)
    (hs : sortedKeys idx.entries) (hv : ∀ e ∈ idx.entries, ValidPath e.path)
    (hp : ValidPath p) (hq : ValidPath q) :
    btLookup q (idx.insertOp meta id p).entries
      = if q = p then some (Entry.new meta id p)
        else if underOf q p ∨ underOf p q then none
        else btLookup q idx.entries := by
  have hanc_sorted : sortedKeys (((properAncestors p).takeWhile fun a => decide (a ≠ [])).foldl
      (fun acc a => btRemove a acc) idx.entries) :=
    sortedKeys_foldl_btRemove _ _ hs
  have hanc_valid : ∀ e ∈ (((properAncestors p).takeWhile fun a => decide (a ≠ [])).foldl
      (fun acc a => btRemove a acc) idx.entries), ValidPath e.path :=
    fun e he => hv e (mem_foldl_btRemove _ _ he)
  simp only [Index.insertOp]
  rw [btLookup_btInsert]
  rw [descFold_lookup p q _ hanc_sorted hp hq hanc_valid]
  rw [ancFold_lookup p q idx.entries hq hp.2]
  by_cases hqp : q = p
  · subst hqp
    rw [if_pos (show entryKey (Entry.new meta id q) = pathBytes q from rfl), if_pos rfl]
  · have hkey : ¬ (entryKey (Entry.new meta id p) = pathBytes q) := by
      intro h
      exact hqp (pathBytes_inj hq.2 hp.2 (show pathBytes q = pathBytes p from h.symm))
    rw [if_neg hkey, if_neg hqp]
    by_cases h1 : underOf q p <;> by_cases h2 : underOf p q <;> simp [h1, h2]

theorem mem_of_btLookup {q : Path} {m : List Entry} {e : Entry}
    (h : btLookup q m = some e) : e ∈ m := by
  unfold btLookup at h
  exact List.mem_of_find?_eq_some h

theorem insertOp_sorted (idx : Index) (meta : Metadata) (id : Id) (p : Path)
    (hs : sortedKeys idx.entries) : sortedKeys (idx.insertOp meta id p).entries := by
  simp only [Index.insertOp]
  exact sortedKeys_btInsert _ _ (sortedKeys_foldl_btRemove _ _ (sortedKeys_foldl_btRemove _ _ hs))

theorem insertOp_valid (idx : Index) (meta : Metadata) (id : Id) (p : Path)
    (hv : ∀ e ∈ idx.entries, ValidPath e.path) (hp : ValidPath p) :
    ∀ e ∈ (idx.insertOp meta id p).entries, ValidPath e.path := by
  simp only [Index.insertOp]
  intro e he
  rcases mem_btInsert he with rfl | he'
  · exact hp
  · exact hv e (mem_foldl_btRemove _ _ (mem_foldl_btRemove _ _ he'))

theorem insertOp_mem_char (idx : Index) (meta : Metadata) (id : Id) (p : Path)
    (hs : sortedKeys idx.entries) (hv : ∀ e ∈ idx.entries, ValidPath e.path) (hp : ValidPath p) :
    ∀ e ∈ (idx.insertOp meta id p).entries,
      e = Entry.new meta id p
      ∨ (e ∈ idx.entries ∧ ¬ underOf p e.path ∧ ¬ underOf e.path p) := by
  intro e he
  have hvalid : ValidPath e.path := insertOp_valid idx meta id p hv hp e he
  have hlook := btLookup_self_of_mem (insertOp_sorted idx meta id p hs) he
  rw [insertOp_lookup idx meta id p e.path hs hv hp hvalid] at hlook
  by_cases h1 : e.path = p
  · rw [if_pos h1] at hlook
    exact .inl (Option.some.inj hlook).symm
  · rw [if_neg h1] at hlook
    by_cases h2 : underOf e.path p ∨ underOf p e.path
    · rw [if_pos h2] at hlook
      exact Option.noConfusion hlook
    · rw [if_neg h2] at hlook
      push_neg at h2
      exact .inr ⟨mem_of_btLookup hlook, h2.2, h2.1⟩

theorem insertOp_noPrefixPairs (idx : Index) (meta : Metadata) (id : Id) (p : Path)
    (hs : sortedKeys idx.entries) (hv : ∀ e ∈ idx.entries, ValidPath e.path)
    (hnp : noPrefixPairs idx.entries) (hp : ValidPath p) :
    noPrefixPairs (idx.insertOp meta id p).entries := by
  intro e1 he1 e2 he2
  rcases insertOp_mem_char idx meta id p hs hv hp e1 he1 with rfl | ⟨hm1, hpn1, hnp1⟩
  · rcases insertOp_mem_char idx meta id p hs hv hp e2 he2 with rfl | ⟨hm2, hpn2, hnp2⟩
    · intro h
      exact h.2 rfl
    · exact hpn2
  · rcases insertOp_mem_char idx meta id p hs hv hp e2 he2 with rfl | ⟨hm2, hpn2, hnp2⟩
    · exact hnp1
    · exact hnp e1 hm1 e2 hm2

theorem applyInserts_invariant (ops : List (Metadata × Id × Path)) (idx : Index)
    (hs : sortedKeys idx.entries) (hv : ∀ e ∈ idx.entries, ValidPath e.path)
    (hnp : noPrefixPairs idx.entries) (hops : ∀ op ∈ ops, ValidPath op.2.2) :
    sortedKeys (applyInserts ops idx).entries
    ∧ (∀ e ∈ (applyInserts ops idx).entries, ValidPath e.path)
    ∧ noPrefixPairs (applyInserts ops idx).entries := by
  induction ops generalizing idx with
  | nil => exact ⟨hs, hv, hnp⟩
  | cons op ops ih =>
      have hop := hops op (List.mem_cons_self _ _)
      exact ih (idx.insertOp op.1 op.2.1 op.2.2)
        (insertOp_sorted idx op.1 op.2.1 op.2.2 hs)
        (insertOp_valid idx op.1 op.2.1 op.2.2 hv hop)
        (insertOp_noPrefixPairs idx op.1 op.2.1 op.2.2 hs hv hnp hop)
        (fun o ho => hops o (List.mem_cons_of_mem _ ho))

/-- **C3.** After any sequence of `Index::insert` operations starting from the
empty index, no entry's path is a proper `/`-delimited path prefix of another
entry's path; and on any well-formed index, `insert(meta, id, p)` installs the
new entry at `p`, removes exactly the entries at proper ancestors of `p` and
the entries whose paths lie strictly under `p`, and leaves every other entry
— in particular byte-prefix siblings such as `foo.sh` when inserting `foo` —
untouched. -/
theorem c3_insert_prefix_invariant :
    (∀ ops : List (Metadata × Id × Path), (∀ op ∈ ops, ValidPath op.2.2) →
      noPrefixPairs (applyInserts ops ⟨[], false⟩).entries)
    ∧ ∀ (idx : Index) (meta : Metadata) (id : Id) (p q : Path),
        sortedKeys idx.entries → (∀ e ∈ idx.entries, ValidPath e.path) →
        ValidPath p → ValidPath q →
        btLookup q (idx.insertOp meta id p).entries
          = if q = p then some (Entry.new meta id p)
            else if underOf q p ∨ underOf p q then none
            else btLookup q idx.entries := by
  constructor
  · intro ops hops
    exact (applyInserts_invariant ops ⟨[], false⟩ List.Pairwise.nil
      (fun e he => absurd he (List.not_mem_nil e))
      (fun e1 he1 => absurd he1 (List.not_mem_nil e1)) hops).2.2
  · intro idx meta id p q hs hv hp hq
    exact insertOp_lookup idx meta id p q hs hv hp hq

/-- Witness for C3: the two inserts `foo/a` then `foo` satisfy the invariant
hypotheses, and on the index tracking `foo.sh` and `foo/a` the insert of `foo`
leaves the byte-prefix sibling `foo.sh` untouched. -/
theorem c3_insert_prefix_invariant_witness :
    ((∀ op ∈ opsFoo, ValidPath op.2.2)
      ∧ noPrefixPairs (applyInserts opsFoo ⟨[], false⟩).entries)
    ∧ (sortedKeys idxFoo.entries
      ∧ btLookup pFooSh (idxFoo.insertOp metaS2 idWorld pFoo).entries
        = if pFooSh = pFoo then some (Entry.new metaS2 idWorld pFoo)
          else if underOf pFooSh pFoo ∨ underOf pFoo pFooSh then none
          else btLookup pFooSh idxFoo.entries) :=
  ⟨⟨by decide, c3_insert_prefix_invariant.1 opsFoo (by decide)⟩,
   ⟨by decide, c3_insert_prefix_invariant.2 idxFoo metaS2 idWorld pFoo pFooSh
      (by decide) (by decide) (by decide) (by decide)⟩⟩
